import Mathlib

/-!
Verification of the notification-queue ("toast") manager of
`complete-react-primitives` (`packages/react-toast/src/context.tsx`).

The manager keeps a list of toast entries, a `Map` from entry id to the
handle of that entry's pending expiry timeout (`timersRef`), and schedules
anonymous 300 ms purge timeouts when an entry is dismissed.  The embedding
below models:

* toast entries (`Toast`) and the option records (`ToastOptions`,
  `ToastConfig`) field by field;
* the timer environment explicitly: `MState.pending` is the list of
  scheduled, not-yet-fired timeouts in creation order (the order used by
  fake-timer test drivers to break deadline ties), an expiry timeout
  carries the numeric handle stored in `timersRef` (`MState.ref`), while a
  purge timeout has no handle because the source discards the return value
  of its `setTimeout`;
* callback invocations: instead of running an opaque `onClose` closure,
  invoking it appends its token to `MState.log`;
* `generateToastId` (`Date.now()` plus a random suffix) as a fresh-counter
  supply `Tid.auto`, the collision-free abstraction the specification
  itself assumes; caller-supplied string ids are `Tid.user`;
* virtual time: `advanceBy` fires, in (deadline, creation-order) order,
  every timeout due within the window, exactly like `vi.advanceTimersByTime`.
-/

namespace ReactToast

/-- Toast identifier: either a token from `generateToastId` (modelled as a
fresh counter, the collision-free abstraction) or a caller-supplied string. -/
inductive Tid where
  | auto : Nat → Tid
  | user : String → Tid
deriving DecidableEq, Repr

/-- Mirrors the `ToastOptions` interface from `types.ts`; `none` means the
property is absent.  Opaque payloads (`message` is passed separately,
`icon`, `action`, `data`, `onClose`) are represented by numeric tokens. -/
structure ToastOptions where
  type : Option String
  duration : Option Nat
  dismissible : Option Bool
  position : Option String
  variant : Option String
  icon : Option Nat
  action : Option Nat
  data : Option Nat
  onClose : Option Nat
  id : Option Tid
deriving DecidableEq, Repr

/-- Empty options record (`{}` in the source). -/
def noOptions : ToastOptions :=
  ⟨none, none, none, none, none, none, none, none, none, none⟩

/-- Mirrors `Required<ToastConfig>` from `types.ts`. -/
structure ToastConfig where
  defaultDuration : Nat
  defaultPosition : String
  defaultVariant : String
  maxToasts : Nat
  pauseOnHover : Bool
  pauseOnFocusLoss : Bool
  gap : Nat
  offsetX : Nat
  offsetY : Nat
deriving DecidableEq, Repr

/-- Mirrors `DEFAULT_CONFIG` from `context.tsx`. -/
def DEFAULT_CONFIG : ToastConfig :=
  ⟨4000, "top-right", "filled", 5, true, true, 8, 16, 16⟩

/-- Mirrors the `Toast` interface from `types.ts`. -/
structure Toast where
  id : Tid
  message : Nat
  type : String
  duration : Nat
  dismissible : Bool
  position : String
  variant : String
  icon : Option Nat
  action : Option Nat
  data : Option Nat
  onClose : Option Nat
  createdAt : Nat
  visible : Bool
  removing : Bool
deriving DecidableEq, Repr

/-- Kind of a scheduled timeout: an auto-dismiss expiry timeout carrying
the handle stored in `timersRef`, or an anonymous 300 ms purge timeout
(the source never stores the handle of a purge `setTimeout`). -/
inductive TimerKind where
  | expiry : Nat → TimerKind
  | purge : TimerKind
deriving DecidableEq, Repr

/-- A scheduled, not-yet-fired timeout. -/
structure Timer where
  kind : TimerKind
  id : Tid
  deadline : Nat
deriving DecidableEq, Repr

/-- Handle of an expiry timeout, `none` for a purge timeout. -/
def Timer.handle : Timer → Option Nat
  | ⟨TimerKind.expiry h, _, _⟩ => some h
  | ⟨TimerKind.purge, _, _⟩ => none

/-- Whole manager state: provider state, the timer environment, the fresh
counters, the virtual clock, and the log of invoked `onClose` tokens. -/
structure MState where
  config : ToastConfig
  toasts : List Toast
  pending : List Timer
  ref : List (Tid × Nat)
  nextSeq : Nat
  nextAuto : Nat
  now : Nat
  log : List Nat
deriving DecidableEq, Repr

/-- State at `ToastProvider` mount. -/
def initialState (cfg : ToastConfig) : MState :=
  ⟨cfg, [], [], [], 0, 0, 0, []⟩

/-- Lookup in the `timersRef` map (modelled as an association list whose
operations mirror `Map.get`, `Map.set`, `Map.delete`). -/
def lookupRef (ref : List (Tid × Nat)) (id : Tid) : Option Nat :=
  match ref with
  | [] => none
  | p :: ps => if p.1 = id then some p.2 else lookupRef ps id

/-- Mirrors `timersRef.current.set(id, timer)`. -/
def refSet (id : Tid) (h : Nat) (ref : List (Tid × Nat)) : List (Tid × Nat) :=
  (id, h) :: ref.filter (fun p => p.1 ≠ id)

/-- Mirrors `clearTimer` from `context.tsx`: if `timersRef` holds a timer
for `id`, clear that timeout and delete the map entry. -/
def clearTimer (id : Tid) (s : MState) : MState :=
  match lookupRef s.ref id with
  | some h =>
      { s with
        pending := s.pending.filter (fun t => t.kind ≠ TimerKind.expiry h),
        ref := s.ref.filter (fun p => p.1 ≠ id) }
  | none => s

/-- Mirrors `setTimer` from `context.tsx`: bail out on a non-positive
duration, otherwise clear the previous timer and schedule a fresh expiry
timeout whose callback is `dismiss id`. -/
def setTimer (id : Tid) (duration : Nat) (s : MState) : MState :=
  if duration ≤ 0 then s
  else
    let s1 := clearTimer id s
    { s1 with
      pending := s1.pending ++ [⟨TimerKind.expiry s1.nextSeq, id, s1.now + duration⟩],
      ref := refSet id s1.nextSeq s1.ref,
      nextSeq := s1.nextSeq + 1 }

/-- Body of the 300 ms purge `setTimeout` inside `dismiss`: find the entry
by id, invoke its `onClose` if it has one, drop the entry from the list. -/
def purgeStep (id : Tid) (s : MState) : MState :=
  { s with
    log := s.log ++ ((s.toasts.find? (fun t => t.id = id)).bind Toast.onClose).toList,
    toasts := s.toasts.filter (fun t => t.id ≠ id) }

/-- Mirrors `dismiss` from `context.tsx`: clear the expiry timer, mark the
entry `removing`, schedule the anonymous 300 ms purge timeout. -/
def dismiss (id : Tid) (s : MState) : MState :=
  let s1 := clearTimer id s
  { s1 with
    toasts := s1.toasts.map (fun t => if t.id = id then { t with removing := true } else t),
    pending := s1.pending ++ [⟨TimerKind.purge, id, s1.now + 300⟩] }

/-- Mirrors `dismissAll` from `context.tsx`: clear every timeout whose
handle is held in `timersRef`, empty the map, invoke every entry's
`onClose`, and empty the list. -/
def dismissAll (s : MState) : MState :=
  { s with
    pending := s.pending.filter (fun t => s.ref.all (fun p => t.kind ≠ TimerKind.expiry p.2)),
    ref := [],
    log := s.log ++ s.toasts.filterMap Toast.onClose,
    toasts := [] }

/-- Mirrors `generateToastId`: a fresh token per call. -/
def generateToastId (s : MState) : Tid × MState :=
  (Tid.auto s.nextAuto, { s with nextAuto := s.nextAuto + 1 })

/-- Mirrors `options.id || generateToastId()` — the empty string is falsy
in JavaScript, so it also triggers generation. -/
def chooseId (o : Option Tid) (s : MState) : Tid × MState :=
  match o with
  | some i => if i = Tid.user "" then generateToastId s else (i, s)
  | none => generateToastId s

/-- String default via `||` (a provided empty string is falsy and falls
back to the default, unlike `??`). -/
def orDefault (o : Option String) (d : String) : String :=
  match o with
  | some v => if v = "" then d else v
  | none => d

/-- Mirrors `createToast` from `context.tsx`: build the entry, prepend it
to its position bucket, evict the oldest entries above `maxToasts`
(clearing their timers, without invoking `onClose`), then start the expiry
timer when the duration is positive. -/
def createToast (message : Nat) (options : ToastOptions) (s : MState) : Tid × MState :=
  let idState := chooseId options.id s
  let id := idState.1
  let s0 := idState.2
  let duration := options.duration.getD s0.config.defaultDuration
  let toast : Toast :=
    { id := id, message := message,
      type := orDefault options.type "info",
      duration := duration,
      dismissible := options.dismissible.getD true,
      position := orDefault options.position s0.config.defaultPosition,
      variant := orDefault options.variant s0.config.defaultVariant,
      icon := options.icon, action := options.action, data := options.data,
      onClose := options.onClose,
      createdAt := s0.now, visible := true, removing := false }
  let samePosition := s0.toasts.filter (fun t => t.position = toast.position)
  let otherPositions := s0.toasts.filter (fun t => t.position ≠ toast.position)
  let newPositionToasts := toast :: samePosition
  let s1 :=
    if newPositionToasts.length > s0.config.maxToasts then
      let toRemove := newPositionToasts.drop s0.config.maxToasts
      let s2 := toRemove.foldl (fun acc t => clearTimer t.id acc) s0
      { s2 with toasts := newPositionToasts.take s0.config.maxToasts ++ otherPositions }
    else
      { s0 with toasts := newPositionToasts ++ otherPositions }
  let s3 := if duration > 0 then setTimer id duration s1 else s1
  (id, s3)

/-- Field-by-field result of `{ ...toast, message, ...options, duration:
options.duration ?? toast.duration }`: every property present in the
partial options overwrites the entry's field, absent ones are kept. -/
def applyUpdate (message : Nat) (o : ToastOptions) (t : Toast) : Toast :=
  { t with
    message := message,
    type := o.type.getD t.type,
    dismissible := o.dismissible.getD t.dismissible,
    position := o.position.getD t.position,
    variant := o.variant.getD t.variant,
    icon := match o.icon with | some i => some i | none => t.icon,
    action := match o.action with | some a => some a | none => t.action,
    data := match o.data with | some d => some d | none => t.data,
    onClose := match o.onClose with | some c => some c | none => t.onClose,
    id := o.id.getD t.id,
    duration := o.duration.getD t.duration }

/-- Mirrors `update` from `context.tsx`: merge into the matching entry,
then reconfigure the timer when `options.duration` is provided. -/
def update (id : Tid) (message : Nat) (options : ToastOptions) (s : MState) : MState :=
  let s1 := { s with
    toasts := s.toasts.map (fun t => if t.id = id then applyUpdate message options t else t) }
  match options.duration with
  | some d => setTimer id d s1
  | none => s1

/-- Firing one scheduled timeout: the engine removes it from the pending
set, sets the virtual clock to its scheduled time, then runs its callback
(`dismiss id` for an expiry timeout, the purge body for a purge timeout). -/
def fireTimer (t : Timer) (s : MState) : MState :=
  let s1 := { s with now := t.deadline, pending := s.pending.erase t }
  match t.kind with
  | TimerKind.expiry _ => dismiss t.id s1
  | TimerKind.purge => purgeStep t.id s1

/-- Is the timeout due within the window (`none` = no bound)? -/
def isDue (limit : Option Nat) (t : Timer) : Bool :=
  match limit with
  | some l => t.deadline ≤ l
  | none => true

/-- First scheduled timeout attaining the minimal deadline among those due
within the window — the firing order of the event loop (ties broken by
creation order). -/
def pickNext (limit : Option Nat) : List Timer → Option Timer
  | [] => none
  | t :: ts =>
    match pickNext limit ts with
    | none => if isDue limit t then some t else none
    | some u => if isDue limit t ∧ t.deadline ≤ u.deadline then some t else some u

/-- Termination weight of one timeout: firing an expiry timeout may
schedule one purge timeout, so expiry counts double. -/
def dueWeight (limit : Option Nat) (t : Timer) : Nat :=
  if isDue limit t then
    match t.kind with
    | TimerKind.expiry _ => 2
    | TimerKind.purge => 1
  else 0

/-- Total weight of the due part of the pending set. -/
def dueMeasure (limit : Option Nat) (l : List Timer) : Nat :=
  (l.map (dueWeight limit)).sum

/-- At the end of a timed advance the virtual clock sits at the window
boundary. -/
def setLimitNow (limit : Option Nat) (s : MState) : MState :=
  match limit with
  | some l => { s with now := l }
  | none => s

/-- Fuelled firing loop: repeatedly fire the earliest due timeout. -/
def advLoop : Nat → Option Nat → MState → MState
  | 0, limit, s => setLimitNow limit s
  | Nat.succ fuel, limit, s =>
    match pickNext limit s.pending with
    | none => setLimitNow limit s
    | some t => advLoop fuel limit (fireTimer t s)

/-- Mirrors `vi.advanceTimersByTime ms`: fire every timeout due within the
next `ms` virtual milliseconds, in firing order. -/
def advanceBy (ms : Nat) (s : MState) : MState :=
  advLoop (dueMeasure (some (s.now + ms)) s.pending) (some (s.now + ms)) s

/-- Fire every pending timeout (advance time past every deadline). -/
def drainAll (s : MState) : MState :=
  advLoop (dueMeasure none s.pending) none s

/-- Observable part of the state: the published entry list and the log of
invoked close callbacks. -/
def Obs (s : MState) : List Toast × List Nat :=
  (s.toasts, s.log)

/-- One externally triggered command (or a virtual-time advance). -/
inductive Op where
  | create : Nat → ToastOptions → Op
  | dismiss : Tid → Op
  | dismissAll : Op
  | update : Tid → Nat → ToastOptions → Op
  | advance : Nat → Op
deriving DecidableEq, Repr

/-- Apply one command to the state. -/
def applyOp (op : Op) (s : MState) : MState :=
  match op with
  | Op.create m o => (createToast m o s).2
  | Op.dismiss id => dismiss id s
  | Op.dismissAll => dismissAll s
  | Op.update id m o => update id m o s
  | Op.advance ms => advanceBy ms s

/-- Run a command sequence. -/
def runOps (ops : List Op) (s : MState) : MState :=
  ops.foldl (fun acc op => applyOp op acc) s

/-- Structural invariant of the timer bookkeeping, maintained by every
operation: expiry handles are pairwise distinct and fresh, every pending
expiry timeout is registered in `timersRef` under its own id, map values
are fresh, a map entry can only point at an expiry timeout for its own
key, and map keys are pairwise distinct. -/
def Inv (s : MState) : Prop :=
  (s.pending.filterMap Timer.handle).Nodup ∧
  (∀ t ∈ s.pending, ∀ h ∈ t.handle.toList, h < s.nextSeq ∧ lookupRef s.ref t.id = some h) ∧
  (∀ p ∈ s.ref, p.2 < s.nextSeq) ∧
  (∀ p ∈ s.ref, ∀ t ∈ s.pending, t.kind = TimerKind.expiry p.2 → t.id = p.1) ∧
  (s.ref.map Prod.fst).Nodup

/-- Number of entries sitting in one position bucket. -/
def posCount (pos : String) (l : List Toast) : Nat :=
  (l.filter (fun t => t.position = pos)).length

/-- Commands other than `update` (whose position override can move an
entry between buckets without re-applying the capacity policy). -/
def noUpdateOp : Op → Bool
  | Op.update _ _ _ => false
  | _ => true

/-- Commands drawn from dismiss / dismissAll / timer firings only. -/
def dismissLikeOp : Op → Bool
  | Op.dismiss _ => true
  | Op.dismissAll => true
  | Op.advance _ => true
  | _ => false

/-- Commands that never supply a caller-chosen id. -/
def autoOnlyOp : Op → Bool
  | Op.create _ o => o.id = none
  | Op.update _ _ o => o.id = none
  | _ => true

/-- Number of entries carrying a given close-callback token. -/
def tokenCount (c : Nat) (l : List Toast) : Nat :=
  (l.filter (fun t => t.onClose = some c)).length

/-- Invocations of token `c` already performed plus entries still able to
perform one. -/
def closePotential (c : Nat) (s : MState) : Nat :=
  s.log.count c + tokenCount c s.toasts

/-- Coupling condition for an extra purge timeout `e` sitting between `p`
and the rest of the queue: either an earlier-queued purge for the same id
with an equal-or-smaller deadline shields it, or no live entry carries its
id (so firing it cannot do anything observable). -/
def MidPhase (p : List Timer) (e : Timer) (toasts : List Toast) : Prop :=
  (∃ sh ∈ p, sh.kind = TimerKind.purge ∧ sh.id = e.id ∧ sh.deadline ≤ e.deadline) ∨
    (∀ x ∈ toasts, x.id ≠ e.id)

/-- State with every timer and `timersRef` entry of one id removed —
the target of the no-op lemmas about absent ids. -/
def stripId (id : Tid) (s : MState) : MState :=
  { s with
    pending := s.pending.filter (fun t => t.id ≠ id),
    ref := s.ref.filter (fun p => p.1 ≠ id) }

/-- Options of the j-th create command in the capacity scenario: a fixed
position, a distinct close-callback token per entry, everything else
defaulted. -/
def plainCreateOpts (pos : String) (j : Nat) : ToastOptions :=
  { noOptions with position := some pos, onClose := some j }

/-- Entry produced by the j-th create command of the capacity scenario. -/
def plainToast (cfg : ToastConfig) (pos : String) (j : Nat) : Toast :=
  { id := Tid.auto j, message := j, type := "info",
    duration := cfg.defaultDuration, dismissible := true, position := pos,
    variant := cfg.defaultVariant, icon := none, action := none,
    data := none, onClose := some j, createdAt := 0, visible := true,
    removing := false }

/-- The capacity scenario: N create commands into one position bucket. -/
def scenarioOps (pos : String) (n : Nat) : List Op :=
  (List.range n).map (fun j => Op.create j (plainCreateOpts pos j))

/-- Entry of the timed-lifecycle scenario: first create from a fresh
provider, duration `d`, close token `c`, all other options defaulted. -/
def lifecycleToast (cfg : ToastConfig) (d m c : Nat) (rem : Bool) : Toast :=
  { id := Tid.auto 0, message := m, type := "info", duration := d,
    dismissible := true, position := cfg.defaultPosition, variant := cfg.defaultVariant,
    icon := none, action := none, data := none, onClose := some c,
    createdAt := 0, visible := true, removing := rem }

/-! ### Association-list toolkit for the `timersRef` model -/

theorem lookupRef_filter_ne (ref : List (Tid × Nat)) (id k : Tid) (hk : k ≠ id) :
    lookupRef (ref.filter (fun p => p.1 ≠ id)) k = lookupRef ref k := by
  induction ref with
  | nil => rfl
  | cons p ps ih =>
    rw [List.filter_cons]
    by_cases hp : p.1 = id
    · rw [if_neg (by simp [hp])]
      have hk2 : ¬ p.1 = k := fun h => hk ((h ▸ hp : k = id))
      rw [ih]
      conv_rhs => rw [lookupRef]
      rw [if_neg hk2]
    · rw [if_pos (by simp [hp])]
      by_cases hk2 : p.1 = k
      · simp only [lookupRef, if_pos hk2]
      · simp only [lookupRef, if_neg hk2, ih]

theorem lookupRef_mem {ref : List (Tid × Nat)} {k : Tid} {v : Nat}
    (h : lookupRef ref k = some v) : (k, v) ∈ ref := by
  induction ref with
  | nil => simp [lookupRef] at h
  | cons p ps ih =>
    simp only [lookupRef] at h
    by_cases hp : p.1 = k
    · rw [if_pos hp] at h
      have hv : p.2 = v := Option.some.inj h
      have hpv : p = (k, v) := by
        obtain ⟨a, b⟩ := p
        simp only [Prod.mk.injEq]
        exact ⟨hp, hv⟩
      rw [← hpv]
      exact List.mem_cons_self _ _
    · rw [if_neg hp] at h
      exact List.mem_cons_of_mem _ (ih h)

theorem lookupRef_none {ref : List (Tid × Nat)} {k : Tid}
    (h : lookupRef ref k = none) : ∀ p ∈ ref, p.1 ≠ k := by
  induction ref with
  | nil => simp
  | cons p ps ih =>
    simp only [lookupRef] at h
    by_cases hp : p.1 = k
    · rw [if_pos hp] at h
      cases h
    · rw [if_neg hp] at h
      intro q hq
      rcases List.mem_cons.mp hq with hq1 | hq1
      · rw [hq1]; exact hp
      · exact ih h q hq1

/-! ### Generic list facts -/

theorem map_eq_self_of {α : Type} {f : α → α} {l : List α}
    (h : ∀ x ∈ l, f x = x) : l.map f = l := by
  induction l with
  | nil => rfl
  | cons a l ih =>
    simp only [List.map_cons, h a (List.mem_cons_self a l)]
    rw [ih (fun x hx => h x (List.mem_cons_of_mem a hx))]

theorem erase_filter_of_neg {α : Type} [DecidableEq α] {p : α → Bool} {a : α}
    (ha : p a = false) (l : List α) : (l.erase a).filter p = l.filter p := by
  induction l with
  | nil => rfl
  | cons b l ih =>
    by_cases hb : b = a
    · subst hb
      rw [List.erase_cons_head, List.filter_cons, ha]
      simp
    · rw [List.erase_cons_tail (by simp [hb]), List.filter_cons, List.filter_cons]
      cases hp : p b <;> simp [hp, ih]

theorem filter_erase_comm {α : Type} [DecidableEq α] {p : α → Bool} {a : α}
    (ha : p a = true) (l : List α) : (l.filter p).erase a = (l.erase a).filter p := by
  induction l with
  | nil => rfl
  | cons b l ih =>
    by_cases hb : b = a
    · subst hb
      rw [List.erase_cons_head, List.filter_cons, ha]
      simp [List.erase_cons_head]
    · rw [List.erase_cons_tail (by simp [hb]), List.filter_cons, List.filter_cons]
      cases hp : p b with
      | false => simp [ih]
      | true =>
        rw [if_pos rfl, if_pos rfl, List.erase_cons_tail (by simp [hb]), ih]

/-! ### Due-weight measure -/

theorem dueMeasure_append (limit : Option Nat) (l r : List Timer) :
    dueMeasure limit (l ++ r) = dueMeasure limit l + dueMeasure limit r := by
  simp [dueMeasure]

theorem dueMeasure_cons (limit : Option Nat) (t : Timer) (l : List Timer) :
    dueMeasure limit (t :: l) = dueWeight limit t + dueMeasure limit l := by
  simp [dueMeasure]

theorem dueMeasure_filter_le (limit : Option Nat) (p : Timer → Bool) (l : List Timer) :
    dueMeasure limit (l.filter p) ≤ dueMeasure limit l := by
  induction l with
  | nil => simp
  | cons t l ih =>
    rw [List.filter_cons]
    cases hp : p t with
    | false =>
      rw [if_neg (by simp [hp])]
      have := dueMeasure_cons limit t l
      omega
    | true =>
      rw [if_pos (by simp [hp]), dueMeasure_cons, dueMeasure_cons]
      omega

theorem dueWeight_le_of_mem {limit : Option Nat} {t : Timer} {l : List Timer}
    (h : t ∈ l) : dueWeight limit t ≤ dueMeasure limit l := by
  induction l with
  | nil => cases h
  | cons a l ih =>
    rw [dueMeasure_cons]
    rcases List.mem_cons.mp h with h1 | h1
    · subst h1; omega
    · have := ih h1; omega

theorem dueMeasure_erase {limit : Option Nat} {t : Timer} {l : List Timer}
    (h : t ∈ l) : dueMeasure limit (l.erase t) + dueWeight limit t = dueMeasure limit l := by
  rcases List.exists_erase_eq h with ⟨l1, l2, _, hl, he⟩
  rw [he, hl, dueMeasure_append, dueMeasure_append, dueMeasure_cons]
  omega

/-! ### Facts about the firing-order chooser `pickNext` -/

theorem pickNext_cons_none {limit : Option Nat} {a : Timer} {ts : List Timer}
    (hp : pickNext limit ts = none) :
    pickNext limit (a :: ts) = if isDue limit a then some a else none := by
  simp only [pickNext, hp]

theorem pickNext_cons_some {limit : Option Nat} {a : Timer} {ts : List Timer} {u : Timer}
    (hp : pickNext limit ts = some u) :
    pickNext limit (a :: ts) =
      if isDue limit a ∧ a.deadline ≤ u.deadline then some a else some u := by
  simp only [pickNext, hp]

theorem pickNext_none_eq_nil {l : List Timer} (h : pickNext none l = none) : l = [] := by
  cases l with
  | nil => rfl
  | cons t ts =>
    exfalso
    cases hp : pickNext none ts with
    | none =>
      rw [pickNext_cons_none hp, if_pos (show isDue none t = true from rfl)] at h
      exact Option.noConfusion h
    | some u =>
      rw [pickNext_cons_some hp] at h
      by_cases hc : (isDue none t = true ∧ t.deadline ≤ u.deadline)
      · rw [if_pos hc] at h; exact Option.noConfusion h
      · rw [if_neg hc] at h; exact Option.noConfusion h

theorem pickNext_none_no_due {limit : Option Nat} {l : List Timer}
    (h : pickNext limit l = none) : ∀ u ∈ l, isDue limit u = false := by
  induction l with
  | nil => simp
  | cons a ts ih =>
    cases hp : pickNext limit ts with
    | none =>
      rw [pickNext_cons_none hp] at h
      intro u hu
      by_cases hc : (isDue limit a = true)
      · rw [if_pos hc] at h; exact Option.noConfusion h
      · rcases List.mem_cons.mp hu with h1 | h1
        · subst h1; simpa using hc
        · exact ih hp u h1
    | some v =>
      rw [pickNext_cons_some hp] at h
      by_cases hc : (isDue limit a = true ∧ a.deadline ≤ v.deadline)
      · rw [if_pos hc] at h; exact Option.noConfusion h
      · rw [if_neg hc] at h; exact Option.noConfusion h

theorem pickNext_mem_due {limit : Option Nat} {l : List Timer} {t : Timer}
    (h : pickNext limit l = some t) : t ∈ l ∧ isDue limit t = true := by
  induction l generalizing t with
  | nil => simp [pickNext] at h
  | cons a ts ih =>
    cases hp : pickNext limit ts with
    | none =>
      rw [pickNext_cons_none hp] at h
      by_cases hc : (isDue limit a = true)
      · rw [if_pos hc] at h
        cases h
        exact ⟨List.mem_cons_self _ _, hc⟩
      · rw [if_neg hc] at h; exact Option.noConfusion h
    | some v =>
      rw [pickNext_cons_some hp] at h
      by_cases hc : (isDue limit a = true ∧ a.deadline ≤ v.deadline)
      · rw [if_pos hc] at h
        cases h
        exact ⟨List.mem_cons_self _ _, hc.1⟩
      · rw [if_neg hc] at h
        cases h
        have := ih hp
        exact ⟨List.mem_cons_of_mem _ this.1, this.2⟩

theorem pickNext_min {limit : Option Nat} {l : List Timer} {t : Timer}
    (h : pickNext limit l = some t) :
    ∀ u ∈ l, isDue limit u = true → t.deadline ≤ u.deadline := by
  induction l generalizing t with
  | nil => simp [pickNext] at h
  | cons a ts ih =>
    intro u hu hdu
    cases hp : pickNext limit ts with
    | none =>
      rw [pickNext_cons_none hp] at h
      by_cases hc : (isDue limit a = true)
      · rw [if_pos hc] at h
        cases h
        rcases List.mem_cons.mp hu with h1 | h1
        · subst h1; exact le_refl _
        · rw [pickNext_none_no_due hp u h1] at hdu; cases hdu
      · rw [if_neg hc] at h; exact Option.noConfusion h
    | some v =>
      rw [pickNext_cons_some hp] at h
      by_cases hc : (isDue limit a = true ∧ a.deadline ≤ v.deadline)
      · rw [if_pos hc] at h
        cases h
        rcases List.mem_cons.mp hu with h1 | h1
        · subst h1; exact le_refl _
        · exact le_trans hc.2 (ih hp u h1 hdu)
      · rw [if_neg hc] at h
        cases h
        rcases List.mem_cons.mp hu with h1 | h1
        · subst h1
          rcases not_and_or.mp hc with hc1 | hc1
          · exact absurd hdu hc1
          · omega
        · exact ih hp u h1 hdu

theorem pickNext_filter {p : Timer → Bool} {l : List Timer} {t : Timer}
    (h : pickNext none l = some t) (hp : p t = true) :
    pickNext none (l.filter p) = some t := by
  induction l generalizing t with
  | nil => simp [pickNext] at h
  | cons a ts ih =>
    cases hq : pickNext none ts with
    | none =>
      have hts : ts = [] := pickNext_none_eq_nil hq
      subst hts
      rw [pickNext_cons_none hq, if_pos (show isDue none a = true from rfl)] at h
      cases h
      rw [List.filter_cons, if_pos (by simp [hp])]
      simp [pickNext, isDue]
    | some u =>
      rw [pickNext_cons_some hq] at h
      by_cases hc : (isDue none a = true ∧ a.deadline ≤ u.deadline)
      · rw [if_pos hc] at h
        cases h
        rw [List.filter_cons, if_pos (by simp [hp])]
        cases hr : pickNext none (ts.filter p) with
        | none => rw [pickNext_cons_none hr, if_pos (show isDue none a = true from rfl)]
        | some w =>
          rw [pickNext_cons_some hr]
          have hw : w ∈ ts := List.mem_of_mem_filter (pickNext_mem_due hr).1
          have hwd : u.deadline ≤ w.deadline := pickNext_min hq w hw rfl
          exact if_pos ⟨rfl, le_trans hc.2 hwd⟩
      · rw [if_neg hc] at h
        cases h
        have ht := ih hq hp
        rw [List.filter_cons]
        cases hpa : p a with
        | false => rw [if_neg (by simp [hpa])]; exact ht
        | true =>
          rw [if_pos (by simp [hpa]), pickNext_cons_some ht, if_neg hc]

theorem pickNext_mid {p q : List Timer} {e t : Timer}
    (h : pickNext none (p ++ e :: q) = some t) :
    pickNext none (p ++ q) = some t ∨
      (t = e ∧ e ∉ p ∧ ∀ u ∈ p, e.deadline < u.deadline) := by
  induction p generalizing t with
  | nil =>
    simp only [List.nil_append] at h ⊢
    cases hq : pickNext none q with
    | none =>
      rw [pickNext_cons_none hq, if_pos (show isDue none e = true from rfl)] at h
      cases h
      right
      exact ⟨rfl, by simp, by simp⟩
    | some u =>
      rw [pickNext_cons_some hq] at h
      by_cases hc : (isDue none e = true ∧ e.deadline ≤ u.deadline)
      · rw [if_pos hc] at h
        cases h
        right
        exact ⟨rfl, by simp, by simp⟩
      · rw [if_neg hc] at h
        exact Or.inl h
  | cons a p ih =>
    simp only [List.cons_append] at h ⊢
    cases hr : pickNext none (p ++ e :: q) with
    | none => exact absurd (pickNext_none_eq_nil hr) (by simp)
    | some v =>
      rw [pickNext_cons_some hr] at h
      rcases ih hr with h1 | h1
      · by_cases hc : (isDue none a = true ∧ a.deadline ≤ v.deadline)
        · rw [if_pos hc] at h
          cases h
          left
          rw [pickNext_cons_some h1, if_pos hc]
        · rw [if_neg hc] at h
          cases h
          left
          rw [pickNext_cons_some h1, if_neg hc]
      · obtain ⟨hve, hep, hstrict⟩ := h1
        subst hve
        by_cases hc : (isDue none a = true ∧ a.deadline ≤ v.deadline)
        · rw [if_pos hc] at h
          cases h
          left
          cases hs : pickNext none (p ++ q) with
          | none => rw [pickNext_cons_none hs, if_pos (show isDue none a = true from rfl)]
          | some w =>
            rw [pickNext_cons_some hs]
            have hw : w ∈ p ++ q := (pickNext_mem_due hs).1
            have hw2 : w ∈ p ++ v :: q := by
              rcases List.mem_append.mp hw with h2 | h2
              · exact List.mem_append_left _ h2
              · exact List.mem_append_right _ (List.mem_cons_of_mem _ h2)
            have hwd : v.deadline ≤ w.deadline := pickNext_min hr w hw2 rfl
            exact if_pos ⟨rfl, le_trans hc.2 hwd⟩
        · rw [if_neg hc] at h
          cases h
          right
          refine ⟨rfl, ?_, ?_⟩
          · intro hmem
            rcases List.mem_cons.mp hmem with h2 | h2
            · rw [h2] at hc
              exact hc ⟨rfl, le_refl _⟩
            · exact hep h2
          · intro u hu
            rcases List.mem_cons.mp hu with h2 | h2
            · subst h2
              rcases not_and_or.mp hc with hc1 | hc1
              · exact absurd rfl hc1
              · omega
            · exact hstrict u h2

/-! ### The firing loop: termination measure, fuel irrelevance, stepping -/

theorem one_le_dueWeight {limit : Option Nat} {t : Timer}
    (h : isDue limit t = true) : 1 ≤ dueWeight limit t := by
  obtain ⟨k, i, d⟩ := t
  cases k <;> simp [dueWeight, h]

theorem dueWeight_le_two (limit : Option Nat) (t : Timer) : dueWeight limit t ≤ 2 := by
  obtain ⟨k, i, d⟩ := t
  unfold dueWeight
  split <;> [skip; omega]
  cases k <;> simp

theorem dueWeight_purge_le (limit : Option Nat) (id : Tid) (d : Nat) :
    dueWeight limit ⟨TimerKind.purge, id, d⟩ ≤ 1 := by
  unfold dueWeight
  split <;> simp

theorem measure_pos {limit : Option Nat} {s : MState} {t : Timer}
    (h : pickNext limit s.pending = some t) : 1 ≤ dueMeasure limit s.pending := by
  obtain ⟨hmem, hdue⟩ := pickNext_mem_due h
  have h1 := one_le_dueWeight hdue
  have h2 : dueWeight limit t ≤ dueMeasure limit s.pending :=
    dueWeight_le_of_mem hmem
  omega

theorem clearTimer_now (id : Tid) (s : MState) : (clearTimer id s).now = s.now := by
  unfold clearTimer
  split <;> rfl

theorem fireTimer_pending_expiry {hh : Nat} {i : Tid} {d : Nat} (s : MState) :
    (fireTimer ⟨TimerKind.expiry hh, i, d⟩ s).pending =
      (clearTimer i
        { s with now := d, pending := s.pending.erase ⟨TimerKind.expiry hh, i, d⟩ }).pending
        ++ [⟨TimerKind.purge, i, d + 300⟩] := by
  simp only [fireTimer, dismiss]
  rw [clearTimer_now]

theorem fireTimer_pending_purge {i : Tid} {d : Nat} (s : MState) :
    (fireTimer ⟨TimerKind.purge, i, d⟩ s).pending
      = s.pending.erase ⟨TimerKind.purge, i, d⟩ := by
  simp only [fireTimer, purgeStep]

theorem dueMeasure_clearTimer_le (limit : Option Nat) (id : Tid) (s : MState) :
    dueMeasure limit (clearTimer id s).pending ≤ dueMeasure limit s.pending := by
  unfold clearTimer
  split
  · simpa using dueMeasure_filter_le limit _ s.pending
  · exact le_refl _

theorem dueMeasure_fire_lt {limit : Option Nat} {s : MState} {t : Timer}
    (h : pickNext limit s.pending = some t) :
    dueMeasure limit (fireTimer t s).pending < dueMeasure limit s.pending := by
  obtain ⟨hmem, hdue⟩ := pickNext_mem_due h
  have herase : dueMeasure limit (s.pending.erase t) + dueWeight limit t
      = dueMeasure limit s.pending :=
    dueMeasure_erase hmem
  obtain ⟨k, i, d⟩ := t
  cases k with
  | expiry hh =>
    have hw : dueWeight limit ⟨TimerKind.expiry hh, i, d⟩ = 2 := by
      simp [dueWeight, hdue]
    rw [fireTimer_pending_expiry, dueMeasure_append]
    have h1 := dueMeasure_clearTimer_le limit i
      { s with now := d, pending := s.pending.erase ⟨TimerKind.expiry hh, i, d⟩ }
    have h2 := dueWeight_purge_le limit i (d + 300)
    have h3 : dueMeasure limit [(⟨TimerKind.purge, i, d + 300⟩ : Timer)]
        = dueWeight limit ⟨TimerKind.purge, i, d + 300⟩ := by
      simp [dueMeasure]
    simp only [MState.pending] at h1
    rw [h3]
    omega
  | purge =>
    have hw : dueWeight limit ⟨TimerKind.purge, i, d⟩ = 1 := by
      simp [dueWeight, hdue]
    rw [fireTimer_pending_purge]
    omega

theorem advLoop_fuel_congr : ∀ (f1 f2 : Nat) (limit : Option Nat) (s : MState),
    dueMeasure limit s.pending ≤ f1 → dueMeasure limit s.pending ≤ f2 →
    advLoop f1 limit s = advLoop f2 limit s := by
  intro f1
  induction f1 with
  | zero =>
    intro f2 limit s h1 h2
    have hpick : pickNext limit s.pending = none := by
      cases hp : pickNext limit s.pending with
      | none => rfl
      | some t => have := measure_pos hp; omega
    cases f2 with
    | zero => rfl
    | succ f2 => simp [advLoop, hpick]
  | succ f1 ih =>
    intro f2 limit s h1 h2
    cases hp : pickNext limit s.pending with
    | none =>
      cases f2 with
      | zero => simp [advLoop, hp]
      | succ f2 => simp [advLoop, hp]
    | some t =>
      have hlt := dueMeasure_fire_lt hp
      cases f2 with
      | zero => have := measure_pos hp; omega
      | succ f2 =>
        simp only [advLoop, hp]
        exact ih f2 limit (fireTimer t s) (by omega) (by omega)

theorem drainAll_nil {s : MState} (h : s.pending = []) : drainAll s = s := by
  simp [drainAll, h, dueMeasure, advLoop, setLimitNow]

theorem drainAll_fire {s : MState} {t : Timer}
    (hp : pickNext none s.pending = some t) :
    drainAll s = drainAll (fireTimer t s) := by
  unfold drainAll
  have h1 := measure_pos hp
  obtain ⟨m, hm⟩ : ∃ m, dueMeasure none s.pending = m + 1 :=
    ⟨dueMeasure none s.pending - 1, by omega⟩
  rw [hm]
  have hstep : advLoop (m + 1) none s = advLoop m none (fireTimer t s) := by
    simp [advLoop, hp]
  rw [hstep]
  have hlt := dueMeasure_fire_lt hp
  exact advLoop_fuel_congr m _ none (fireTimer t s) (by omega) (le_refl _)

theorem fireTimer_scrub (t : Timer) (s : MState) (x k a : Nat) (c : ToastConfig) :
    fireTimer t { s with now := x, nextSeq := k, nextAuto := a, config := c }
      = { fireTimer t s with nextSeq := k, nextAuto := a, config := c } := by
  obtain ⟨tk, i, d⟩ := t
  cases tk with
  | expiry hh =>
    simp only [fireTimer, dismiss, clearTimer]
    split <;> rfl
  | purge =>
    simp only [fireTimer, purgeStep]

theorem Obs_advLoop_scrub : ∀ (f : Nat) (s : MState) (x k a : Nat) (c : ToastConfig),
    Obs (advLoop f none { s with now := x, nextSeq := k, nextAuto := a, config := c })
      = Obs (advLoop f none s) := by
  intro f
  induction f with
  | zero => intro s x k a c; simp [advLoop, setLimitNow, Obs]
  | succ f ih =>
    intro s x k a c
    cases hpk : pickNext none s.pending with
    | none => simp [advLoop, hpk, setLimitNow, Obs]
    | some t =>
      have hpk2 : pickNext none
          ({ s with now := x, nextSeq := k, nextAuto := a, config := c }).pending = some t := hpk
      simp only [advLoop, hpk, hpk2]
      rw [fireTimer_scrub]
      exact ih _ _ _ _ _

theorem Obs_drainAll_scrub (s : MState) (x k a : Nat) (c : ToastConfig) :
    Obs (drainAll { s with now := x, nextSeq := k, nextAuto := a, config := c })
      = Obs (drainAll s) := by
  unfold drainAll
  exact Obs_advLoop_scrub _ _ _ _ _ _

theorem Obs_drainAll_congr {s1 s2 : MState}
    (hp : s1.pending = s2.pending) (ht : s1.toasts = s2.toasts)
    (hr : s1.ref = s2.ref) (hl : s1.log = s2.log) :
    Obs (drainAll s1) = Obs (drainAll s2) := by
  have h12 : s1 = { s2 with now := s1.now, nextSeq := s1.nextSeq, nextAuto := s1.nextAuto, config := s1.config } := by
    cases s1; cases s2; simp_all
  rw [h12, Obs_drainAll_scrub]

/-! ### Component lemmas for `clearTimer` and `fireTimer` -/

theorem clearTimer_toasts (id : Tid) (s : MState) : (clearTimer id s).toasts = s.toasts := by
  unfold clearTimer
  split <;> rfl

theorem clearTimer_log (id : Tid) (s : MState) : (clearTimer id s).log = s.log := by
  unfold clearTimer
  split <;> rfl

theorem clearTimer_nextSeq (id : Tid) (s : MState) : (clearTimer id s).nextSeq = s.nextSeq := by
  unfold clearTimer
  split <;> rfl

theorem clearTimer_pending_keep (i : Tid) (ref : List (Tid × Nat)) :
    ∃ pr : Timer → Bool, (∀ u : Timer, u.kind = TimerKind.purge → pr u = true) ∧
      ∀ s : MState, s.ref = ref → (clearTimer i s).pending = s.pending.filter pr := by
  cases hl : lookupRef ref i with
  | some h =>
    refine ⟨fun t => decide (t.kind ≠ TimerKind.expiry h), fun u hu => by simp [hu], ?_⟩
    intro s hs
    unfold clearTimer
    rw [hs, hl]
  | none =>
    refine ⟨fun _ => true, fun u _ => rfl, ?_⟩
    intro s hs
    unfold clearTimer
    rw [hs, hl]
    simp

theorem fireTimer_toasts_purge (i : Tid) (d : Nat) (s : MState) :
    (fireTimer ⟨TimerKind.purge, i, d⟩ s).toasts = s.toasts.filter (fun x => x.id ≠ i) := by
  simp only [fireTimer, purgeStep]

theorem fireTimer_toasts_expiry (hh : Nat) (i : Tid) (d : Nat) (s : MState) :
    (fireTimer ⟨TimerKind.expiry hh, i, d⟩ s).toasts
      = s.toasts.map (fun u => if u.id = i then { u with removing := true } else u) := by
  simp only [fireTimer, dismiss]
  rw [clearTimer_toasts]

theorem fireTimer_toasts_ids {t : Timer} {s : MState} {x : Toast}
    (hx : x ∈ (fireTimer t s).toasts) : ∃ y ∈ s.toasts, x.id = y.id := by
  obtain ⟨k, i, d⟩ := t
  cases k with
  | expiry hh =>
    rw [fireTimer_toasts_expiry] at hx
    obtain ⟨y, hy, hxy⟩ := List.mem_map.mp hx
    refine ⟨y, hy, ?_⟩
    rw [← hxy]
    by_cases hyi : y.id = i <;> simp [hyi]
  | purge =>
    rw [fireTimer_toasts_purge] at hx
    exact ⟨x, List.mem_of_mem_filter hx, rfl⟩

theorem fireTimer_pending_only (t : Timer) (s : MState) (L : List Timer) :
    fireTimer t { s with pending := L }
      = { fireTimer t s with pending := (fireTimer t { s with pending := L }).pending } := by
  obtain ⟨k, i, d⟩ := t
  cases k with
  | expiry hh =>
    simp only [fireTimer, dismiss, clearTimer]
    split <;> rfl
  | purge =>
    simp only [fireTimer, purgeStep]

/-! ### An extra purge timeout is invisible to the drained observables -/

theorem fireTimer_pending_expiry_filter {hh : Nat} {i : Tid} {d : Nat} (s : MState)
    {pr : Timer → Bool}
    (hclr : ∀ s2 : MState, s2.ref = s.ref → (clearTimer i s2).pending = s2.pending.filter pr) :
    (fireTimer ⟨TimerKind.expiry hh, i, d⟩ s).pending
      = (s.pending.erase ⟨TimerKind.expiry hh, i, d⟩).filter pr
        ++ [⟨TimerKind.purge, i, d + 300⟩] := by
  rw [fireTimer_pending_expiry]
  congr 1
  exact hclr _ rfl

theorem Obs_drainAll_mid_purge :
    ∀ (n : Nat) (s : MState) (p q : List Timer) (e : Timer),
    dueMeasure none s.pending ≤ n →
    s.pending = p ++ e :: q →
    e.kind = TimerKind.purge →
    MidPhase p e s.toasts →
    Obs (drainAll s) = Obs (drainAll { s with pending := p ++ q }) := by
  intro n
  induction n with
  | zero =>
    intro s p q e hn hs he hphase
    exfalso
    have h1 : 1 ≤ dueWeight none e := one_le_dueWeight rfl
    have h2 : dueMeasure none s.pending
        = dueMeasure none p + (dueWeight none e + dueMeasure none q) := by
      rw [hs, dueMeasure_append, dueMeasure_cons]
    omega
  | succ n ih =>
    intro s p q e hn hs he hphase
    cases hpk : pickNext none s.pending with
    | none =>
      have hnil : p ++ e :: q = [] := by rw [← hs]; exact pickNext_none_eq_nil hpk
      simp at hnil
    | some t =>
      have hpk2 : pickNext none (p ++ e :: q) = some t := by rw [← hs]; exact hpk
      have hmeas : dueMeasure none (fireTimer t s).pending ≤ n := by
        have := dueMeasure_fire_lt hpk
        omega
      rcases pickNext_mid hpk2 with hmid | ⟨hte, hep, hstrict⟩
      · have hdecomp : ∃ A B : List Timer,
            (p ++ e :: q).erase t = A ++ e :: B ∧
            (p ++ q).erase t = A ++ B ∧
            (∀ sh ∈ p, sh ≠ t → sh ∈ A) := by
          by_cases htp : t ∈ p
          · refine ⟨p.erase t, q, List.erase_append_left _ htp,
              List.erase_append_left _ htp, ?_⟩
            intro sh hsh hne
            exact (List.mem_erase_of_ne hne).mpr hsh
          · by_cases hte2 : t = e
            · subst hte2
              have heq : t ∈ q := by
                rcases List.mem_append.mp (pickNext_mem_due hmid).1 with h2 | h2
                · exact absurd h2 htp
                · exact h2
              obtain ⟨q1, q2, hq1, hqe, hqerase⟩ := List.exists_erase_eq heq
              refine ⟨p ++ q1, q2, ?_, ?_, ?_⟩
              · rw [List.erase_append_right _ htp, List.erase_cons_head, hqe,
                  List.append_assoc]
              · rw [List.erase_append_right _ htp, hqerase, List.append_assoc]
              · intro sh hsh _
                exact List.mem_append_left _ hsh
            · refine ⟨p, q.erase t, ?_, ?_, fun sh hsh _ => hsh⟩
              · rw [List.erase_append_right _ htp,
                  List.erase_cons_tail (by simp; exact fun hc => hte2 hc.symm)]
              · rw [List.erase_append_right _ htp]
        obtain ⟨A, B, hE, hE2, hAmem⟩ := hdecomp
        have hphase2 : MidPhase A e (fireTimer t s).toasts := by
          by_cases hself : t.kind = TimerKind.purge ∧ t.id = e.id
          · right
            intro x hx
            obtain ⟨k, i, d⟩ := t
            obtain ⟨hk, hi⟩ := hself
            cases k with
            | expiry hh => exact absurd hk (by simp)
            | purge =>
              rw [fireTimer_toasts_purge] at hx
              have h3 := (List.mem_filter.mp hx).2
              simp only [decide_eq_true_eq] at h3
              simpa using hi ▸ h3
          · rcases hphase with ⟨sh, hshp, hsh1, hsh2, hsh3⟩ | hB
            · left
              by_cases hsht : sh = t
              · exact absurd (hsht ▸ (⟨hsh1, hsh2⟩ : sh.kind = TimerKind.purge ∧ sh.id = e.id)) hself
              · exact ⟨sh, hAmem sh hshp hsht, hsh1, hsh2, hsh3⟩
            · right
              intro x hx
              obtain ⟨y, hy, hxy⟩ := fireTimer_toasts_ids hx
              rw [hxy]
              exact hB y hy
        rw [drainAll_fire hpk]
        have hpkr : pickNext none ({ s with pending := p ++ q } : MState).pending = some t := hmid
        rw [drainAll_fire hpkr, fireTimer_pending_only t s (p ++ q)]
        obtain ⟨k, i, d⟩ := t
        cases k with
        | expiry hh =>
          obtain ⟨pr, hpr, hclr⟩ := clearTimer_pending_keep i s.ref
          have hpe : (fireTimer ⟨TimerKind.expiry hh, i, d⟩ s).pending
              = (A.filter pr) ++ e :: (B.filter pr ++ [⟨TimerKind.purge, i, d + 300⟩]) := by
            rw [fireTimer_pending_expiry_filter s hclr]
            rw [hs, hE, List.filter_append, List.filter_cons, if_pos (by simp [hpr e he])]
            simp
          have hpe2 : (fireTimer ⟨TimerKind.expiry hh, i, d⟩
                { s with pending := p ++ q }).pending
              = (A.filter pr) ++ (B.filter pr ++ [⟨TimerKind.purge, i, d + 300⟩]) := by
            rw [fireTimer_pending_expiry_filter { s with pending := p ++ q } hclr]
            show (((p ++ q).erase ⟨TimerKind.expiry hh, i, d⟩).filter pr) ++ _ = _
            rw [hE2, List.filter_append]
            simp
          have hphase3 : MidPhase (A.filter pr) e
              (fireTimer ⟨TimerKind.expiry hh, i, d⟩ s).toasts := by
            rcases hphase2 with ⟨sh, hshA, hsh1, hsh2, hsh3⟩ | hB
            · exact Or.inl ⟨sh, List.mem_filter.mpr ⟨hshA, hpr sh hsh1⟩, hsh1, hsh2, hsh3⟩
            · exact Or.inr hB
          rw [hpe2, ih (fireTimer ⟨TimerKind.expiry hh, i, d⟩ s) (A.filter pr)
            (B.filter pr ++ [⟨TimerKind.purge, i, d + 300⟩]) e hmeas hpe he hphase3]
        | purge =>
          have hpe : (fireTimer ⟨TimerKind.purge, i, d⟩ s).pending = A ++ e :: B := by
            rw [fireTimer_pending_purge, hs]
            exact hE
          have hpe2 : (fireTimer ⟨TimerKind.purge, i, d⟩
                { s with pending := p ++ q }).pending = A ++ B := by
            rw [fireTimer_pending_purge]
            exact hE2
          rw [hpe2, ih (fireTimer ⟨TimerKind.purge, i, d⟩ s) A B e hmeas hpe he hphase2]
      · subst hte
        have hB : ∀ x ∈ s.toasts, x.id ≠ t.id := by
          rcases hphase with ⟨sh, hshp, hsh1, hsh2, hsh3⟩ | hB
          · exact absurd (hstrict sh hshp) (by omega)
          · exact hB
        rw [drainAll_fire hpk]
        obtain ⟨k, i, d⟩ := t
        cases k with
        | expiry hh => exact absurd he (by simp)
        | purge =>
          have hpend : (fireTimer ⟨TimerKind.purge, i, d⟩ s).pending = p ++ q := by
            rw [fireTimer_pending_purge, hs, List.erase_append_right _ hep,
              List.erase_cons_head]
          have htoasts : (fireTimer ⟨TimerKind.purge, i, d⟩ s).toasts = s.toasts := by
            rw [fireTimer_toasts_purge]
            apply List.filter_eq_self.mpr
            intro x hx
            simpa using hB x hx
          have hfind : s.toasts.find? (fun x => x.id = i) = none := by
            apply List.find?_eq_none.mpr
            intro x hx
            simpa using hB x hx
          have hlog : (fireTimer ⟨TimerKind.purge, i, d⟩ s).log = s.log := by
            simp only [fireTimer, purgeStep]
            rw [hfind]
            simp
          exact Obs_drainAll_congr hpend htoasts rfl hlog

/-! ### Structure of a repeated dismiss -/

theorem lookupRef_filter_self (ref : List (Tid × Nat)) (id : Tid) :
    lookupRef (ref.filter (fun p => p.1 ≠ id)) id = none := by
  induction ref with
  | nil => rfl
  | cons p ps ih =>
    rw [List.filter_cons]
    by_cases hp : p.1 = id
    · rw [if_neg (by simp [hp])]
      exact ih
    · rw [if_pos (by simp [hp])]
      simp only [lookupRef, if_neg hp]
      exact ih

theorem dismiss_ref (id : Tid) (s : MState) : (dismiss id s).ref = (clearTimer id s).ref := rfl

theorem dismiss_now (id : Tid) (s : MState) : (dismiss id s).now = s.now :=
  clearTimer_now id s

theorem dismiss_toasts (id : Tid) (s : MState) :
    (dismiss id s).toasts
      = s.toasts.map (fun t => if t.id = id then { t with removing := true } else t) := by
  show (clearTimer id s).toasts.map _ = _
  rw [clearTimer_toasts]

theorem dismiss_pending (id : Tid) (s : MState) :
    (dismiss id s).pending
      = (clearTimer id s).pending ++ [⟨TimerKind.purge, id, s.now + 300⟩] := by
  show (clearTimer id s).pending ++ [⟨TimerKind.purge, id, (clearTimer id s).now + 300⟩] = _
  rw [clearTimer_now]

theorem dismiss_lookup_none (id : Tid) (s : MState) :
    lookupRef (dismiss id s).ref id = none := by
  rw [dismiss_ref]
  unfold clearTimer
  cases hl : lookupRef s.ref id with
  | some h => exact lookupRef_filter_self s.ref id
  | none => exact hl

theorem clearTimer_of_lookup_none {id : Tid} {s : MState}
    (h : lookupRef s.ref id = none) : clearTimer id s = s := by
  unfold clearTimer
  rw [h]

theorem dismiss_toasts_map_id (id : Tid) (s : MState) :
    (dismiss id s).toasts.map (fun t => if t.id = id then { t with removing := true } else t)
      = (dismiss id s).toasts := by
  apply map_eq_self_of
  intro x hx
  rw [dismiss_toasts] at hx
  obtain ⟨y, hy, hxy⟩ := List.mem_map.mp hx
  by_cases hyi : y.id = id
  · rw [← hxy]
    simp [hyi]
  · rw [← hxy]
    simp [hyi]

theorem dismiss_dismiss (id : Tid) (s : MState) :
    dismiss id (dismiss id s)
      = { dismiss id s with
          pending := (dismiss id s).pending
            ++ [⟨TimerKind.purge, id, (dismiss id s).now + 300⟩] } := by
  have h2 : clearTimer id (dismiss id s) = dismiss id s :=
    clearTimer_of_lookup_none (dismiss_lookup_none id s)
  have h3 := dismiss_toasts_map_id id s
  show ({ clearTimer id (dismiss id s) with
      toasts := (clearTimer id (dismiss id s)).toasts.map
        (fun t => if t.id = id then { t with removing := true } else t),
      pending := (clearTimer id (dismiss id s)).pending
        ++ [⟨TimerKind.purge, id, (clearTimer id (dismiss id s)).now + 300⟩] } : MState) = _
  rw [h2, h3]

/-- C6: `dismiss` is idempotent — for every state and every id, calling
`dismiss id` twice in a row leaves the published list exactly as one call
left it, and after all scheduled timers have fired the final observable
state (published list and close-callback invocations) is the same as for a
single call; in particular the second call on an already-removing entry or
on an absent id changes nothing. -/
theorem dismiss_idempotent (s : MState) (id : Tid) :
    (dismiss id (dismiss id s)).toasts = (dismiss id s).toasts ∧
    Obs (drainAll (dismiss id (dismiss id s))) = Obs (drainAll (dismiss id s)) := by
  constructor
  · rw [dismiss_dismiss]
  · rw [dismiss_dismiss]
    have hphase : MidPhase (dismiss id s).pending
        ⟨TimerKind.purge, id, (dismiss id s).now + 300⟩ (dismiss id s).toasts := by
      left
      refine ⟨⟨TimerKind.purge, id, s.now + 300⟩, ?_, rfl, rfl, ?_⟩
      · rw [dismiss_pending]
        exact List.mem_append_right _ (List.mem_singleton.mpr rfl)
      · show s.now + 300 ≤ (dismiss id s).now + 300
        rw [dismiss_now]
    have hmid := Obs_drainAll_mid_purge
      (dueMeasure none ((dismiss id s).pending
        ++ [⟨TimerKind.purge, id, (dismiss id s).now + 300⟩]))
      { dismiss id s with pending := (dismiss id s).pending
          ++ [⟨TimerKind.purge, id, (dismiss id s).now + 300⟩] }
      (dismiss id s).pending []
      ⟨TimerKind.purge, id, (dismiss id s).now + 300⟩
      (le_refl _) rfl rfl hphase
    rw [hmid]
    exact Obs_drainAll_congr (List.append_nil _) rfl rfl rfl

/-! ### The timer-bookkeeping invariant and its preservation -/

theorem handle_some {t : Timer} {h : Nat} :
    t.handle = some h ↔ t.kind = TimerKind.expiry h := by
  obtain ⟨k, i, d⟩ := t
  cases k <;> simp [Timer.handle]

theorem handle_mem_toList {t : Timer} {h : Nat} :
    h ∈ t.handle.toList ↔ t.kind = TimerKind.expiry h := by
  rw [← handle_some]
  cases ho : t.handle <;> simp [ho, eq_comm]

theorem mem_filterMap_handle {x : Nat} {l : List Timer} :
    x ∈ l.filterMap Timer.handle ↔ ∃ t ∈ l, t.kind = TimerKind.expiry x := by
  rw [List.mem_filterMap]
  constructor
  · rintro ⟨t, ht, hh⟩
    exact ⟨t, ht, handle_some.mp hh⟩
  · rintro ⟨t, ht, hh⟩
    exact ⟨t, ht, handle_some.mpr hh⟩

theorem lookupRef_refSet_self (id : Tid) (n : Nat) (ref : List (Tid × Nat)) :
    lookupRef (refSet id n ref) id = some n := by
  simp [refSet, lookupRef]

theorem lookupRef_refSet_ne (id : Tid) (n : Nat) (ref : List (Tid × Nat))
    {k : Tid} (h : k ≠ id) :
    lookupRef (refSet id n ref) k = lookupRef ref k := by
  simp only [refSet, lookupRef]
  rw [if_neg (fun hc => h hc.symm)]
  exact lookupRef_filter_ne ref id k h

instance decidableInv (s : MState) : Decidable (Inv s) := by
  unfold Inv
  infer_instance

theorem Inv_transfer {s1 s2 : MState} (hp : s2.pending = s1.pending)
    (hr : s2.ref = s1.ref) (hn : s2.nextSeq = s1.nextSeq) (hI : Inv s1) : Inv s2 := by
  unfold Inv at hI ⊢
  rw [hp, hr, hn]
  exact hI

theorem Inv_expiry {s : MState} {t : Timer} {h : Nat} (hI : Inv s)
    (ht : t ∈ s.pending) (hk : t.kind = TimerKind.expiry h) :
    h < s.nextSeq ∧ lookupRef s.ref t.id = some h := by
  have hI2 := hI.2.1
  exact hI2 t ht h (handle_mem_toList.mpr hk)

theorem Inv_clearTimer (id : Tid) {s : MState} (hI : Inv s) : Inv (clearTimer id s) := by
  obtain ⟨h1, h2, h3, h4, h5⟩ := hI
  unfold clearTimer
  cases hl : lookupRef s.ref id with
  | none => exact ⟨h1, h2, h3, h4, h5⟩
  | some hh =>
    refine ⟨?_, ?_, ?_, ?_, ?_⟩
    · exact List.Nodup.sublist (List.Sublist.filterMap _ (List.filter_sublist _)) h1
    · intro t ht h3b hmem
      obtain ⟨htp, htk⟩ := List.mem_filter.mp ht
      obtain ⟨ha, hb⟩ := h2 t htp h3b hmem
      have hkind : t.kind = TimerKind.expiry h3b := handle_mem_toList.mp hmem
      refine ⟨ha, ?_⟩
      have htid : t.id ≠ id := by
        intro hcontra
        rw [hcontra] at hb
        have hhh : h3b = hh := Option.some.inj (hb.symm.trans hl)
        subst hhh
        simp [hkind] at htk
      show lookupRef (s.ref.filter (fun p => p.1 ≠ id)) t.id = some h3b
      rw [lookupRef_filter_ne _ _ _ htid]
      exact hb
    · intro p hp
      exact h3 p (List.mem_of_mem_filter hp)
    · intro p hp t ht hk
      exact h4 p (List.mem_of_mem_filter hp) t (List.mem_of_mem_filter ht) hk
    · exact List.Nodup.sublist (List.Sublist.map _ (List.filter_sublist _)) h5

theorem clearTimer_expiry_ne {s : MState} (hI : Inv s) (id : Tid) :
    ∀ t ∈ (clearTimer id s).pending, ∀ hh : Nat,
      t.kind = TimerKind.expiry hh → t.id ≠ id := by
  unfold clearTimer
  cases hl : lookupRef s.ref id with
  | none =>
    intro t ht hh hk hcontra
    have hlk := (Inv_expiry hI ht hk).2
    rw [hcontra, hl] at hlk
    cases hlk
  | some h0 =>
    intro t ht hh hk hcontra
    obtain ⟨htp, htk⟩ := List.mem_filter.mp ht
    have hlk := (Inv_expiry hI htp hk).2
    rw [hcontra] at hlk
    have hhh : hh = h0 := Option.some.inj (hlk.symm.trans hl)
    subst hhh
    simp [hk] at htk

theorem Inv_setTimer (id : Tid) (d : Nat) {s : MState} (hI : Inv s) : Inv (setTimer id d s) := by
  unfold setTimer
  by_cases hd : d ≤ 0
  · rw [if_pos hd]; exact hI
  · rw [if_neg hd]
    have hIc := Inv_clearTimer id hI
    have hnoid := clearTimer_expiry_ne hI id
    obtain ⟨h1, h2, h3, h4, h5⟩ := hIc
    refine ⟨?_, ?_, ?_, ?_, ?_⟩
    · rw [List.filterMap_append]
      rw [show List.filterMap Timer.handle
          [(⟨TimerKind.expiry (clearTimer id s).nextSeq, id, (clearTimer id s).now + d⟩ : Timer)]
          = [(clearTimer id s).nextSeq] from rfl]
      rw [List.nodup_append]
      refine ⟨h1, List.nodup_singleton _, ?_⟩
      intro a ha hb
      rw [List.mem_singleton] at hb
      subst hb
      obtain ⟨t, ht, hk⟩ := mem_filterMap_handle.mp ha
      have := (h2 t ht _ (handle_mem_toList.mpr hk)).1
      omega
    · intro t ht hb hmem
      rcases List.mem_append.mp ht with htold | htnew
      · obtain ⟨ha, hlk⟩ := h2 t htold hb hmem
        have hkind : t.kind = TimerKind.expiry hb := handle_mem_toList.mp hmem
        have htid : t.id ≠ id := hnoid t htold hb hkind
        refine ⟨?_, ?_⟩
        · show hb < (clearTimer id s).nextSeq + 1
          omega
        · show lookupRef (refSet id (clearTimer id s).nextSeq (clearTimer id s).ref) t.id
            = some hb
          rw [lookupRef_refSet_ne _ _ _ htid]
          exact hlk
      · rw [List.mem_singleton] at htnew
        subst htnew
        rw [handle_mem_toList] at hmem
        have hbn : hb = (clearTimer id s).nextSeq := by
          have := hmem.symm
          simpa using this
        subst hbn
        refine ⟨?_, lookupRef_refSet_self _ _ _⟩
        show (clearTimer id s).nextSeq < (clearTimer id s).nextSeq + 1
        omega
    · intro p hp
      rcases List.mem_cons.mp hp with hph | hpt
      · rw [hph]
        show (clearTimer id s).nextSeq < (clearTimer id s).nextSeq + 1
        omega
      · have := h3 p (List.mem_of_mem_filter hpt)
        show p.2 < (clearTimer id s).nextSeq + 1
        omega
    · intro p hp t ht hk
      rcases List.mem_cons.mp hp with hph | hpt
      · subst hph
        rcases List.mem_append.mp ht with htold | htnew
        · exfalso
          have := (h2 t htold _ (handle_mem_toList.mpr hk)).1
          simp at this
        · rw [List.mem_singleton] at htnew
          rw [htnew]
      · have hps := List.mem_of_mem_filter hpt
        rcases List.mem_append.mp ht with htold | htnew
        · exact h4 p hps t htold hk
        · exfalso
          rw [List.mem_singleton] at htnew
          subst htnew
          have hp2 : p.2 = (clearTimer id s).nextSeq := by
            simpa using hk.symm
          have := h3 p hps
          omega
    · show ((refSet id (clearTimer id s).nextSeq (clearTimer id s).ref).map Prod.fst).Nodup
      rw [refSet, List.map_cons, List.nodup_cons]
      refine ⟨?_, List.Nodup.sublist (List.Sublist.map _ (List.filter_sublist _)) h5⟩
      intro hmem
      obtain ⟨p, hp, hfst⟩ := List.mem_map.mp hmem
      have := (List.mem_filter.mp hp).2
      simp only [decide_eq_true_eq] at this
      exact this hfst

theorem dismiss_nextSeq (id : Tid) (s : MState) : (dismiss id s).nextSeq = s.nextSeq :=
  clearTimer_nextSeq id s

theorem Inv_append_purge {s : MState} (hI : Inv s) (i : Tid) (dl : Nat) :
    Inv { s with pending := s.pending ++ [⟨TimerKind.purge, i, dl⟩] } := by
  obtain ⟨h1, h2, h3, h4, h5⟩ := hI
  refine ⟨?_, ?_, ?_, ?_, ?_⟩
  · rw [List.filterMap_append,
      show List.filterMap Timer.handle [(⟨TimerKind.purge, i, dl⟩ : Timer)] = [] from rfl,
      List.append_nil]
    exact h1
  · intro t ht hb hmem
    rcases List.mem_append.mp ht with htold | htnew
    · exact h2 t htold hb hmem
    · rw [List.mem_singleton] at htnew
      subst htnew
      simp [Timer.handle] at hmem
  · exact h3
  · intro p hp t ht hk
    rcases List.mem_append.mp ht with htold | htnew
    · exact h4 p hp t htold hk
    · rw [List.mem_singleton] at htnew
      subst htnew
      simp at hk
  · exact h5

theorem Inv_dismiss (id : Tid) {s : MState} (hI : Inv s) : Inv (dismiss id s) := by
  have h := Inv_append_purge (Inv_clearTimer id hI) id ((clearTimer id s).now + 300)
  exact Inv_transfer rfl rfl rfl h

theorem Inv_purgeStep (id : Tid) {s : MState} (hI : Inv s) : Inv (purgeStep id s) :=
  Inv_transfer rfl rfl rfl hI

theorem Inv_dismissAll {s : MState} (hI : Inv s) : Inv (dismissAll s) := by
  obtain ⟨h1, h2, h3, h4, h5⟩ := hI
  refine ⟨?_, ?_, ?_, ?_, ?_⟩
  · exact List.Nodup.sublist (List.Sublist.filterMap _ (List.filter_sublist _)) h1
  · intro t ht hb hmem
    exfalso
    obtain ⟨htp, htk⟩ := List.mem_filter.mp ht
    have hkind := handle_mem_toList.mp hmem
    obtain ⟨ha, hlk⟩ := h2 t htp hb hmem
    have hpair := lookupRef_mem hlk
    have := List.all_eq_true.mp htk _ hpair
    simp [hkind] at this
  · intro p hp
    cases hp
  · intro p hp
    cases hp
  · exact List.nodup_nil

theorem Inv_foldl_clearTimer (l : List Toast) {s : MState} (hI : Inv s) :
    Inv (l.foldl (fun acc t => clearTimer t.id acc) s) := by
  induction l generalizing s with
  | nil => exact hI
  | cons a l ih => exact ih (Inv_clearTimer a.id hI)

theorem Inv_chooseId (o : Option Tid) {s : MState} (hI : Inv s) : Inv (chooseId o s).2 := by
  cases o with
  | none =>
    show Inv (generateToastId s).2
    exact Inv_transfer rfl rfl rfl hI
  | some i =>
    show Inv (if i = Tid.user "" then generateToastId s else (i, s)).2
    by_cases hi : i = Tid.user ""
    · rw [if_pos hi]
      exact Inv_transfer rfl rfl rfl hI
    · rw [if_neg hi]
      exact hI

theorem Inv_createToast (m : Nat) (o : ToastOptions) {s : MState} (hI : Inv s) :
    Inv (createToast m o s).2 := by
  have hI0 : Inv (chooseId o.id s).2 := Inv_chooseId o.id hI
  simp only [createToast]
  split
  · apply Inv_setTimer
    split
    · exact Inv_transfer rfl rfl rfl (Inv_foldl_clearTimer _ hI0)
    · exact Inv_transfer rfl rfl rfl hI0
  · split
    · exact Inv_transfer rfl rfl rfl (Inv_foldl_clearTimer _ hI0)
    · exact Inv_transfer rfl rfl rfl hI0

theorem Inv_update (id : Tid) (m : Nat) (o : ToastOptions) {s : MState} (hI : Inv s) :
    Inv (update id m o s) := by
  unfold update
  cases hdo : o.duration with
  | some d =>
    apply Inv_setTimer
    exact Inv_transfer rfl rfl rfl hI
  | none => exact Inv_transfer rfl rfl rfl hI

theorem Inv_fireTimer (t : Timer) {s : MState} (hI : Inv s) : Inv (fireTimer t s) := by
  obtain ⟨k, i, d⟩ := t
  have h1 : Inv { s with now := d, pending := s.pending.erase ⟨k, i, d⟩ } := by
    obtain ⟨h1, h2, h3, h4, h5⟩ := hI
    refine ⟨?_, ?_, ?_, ?_, ?_⟩
    · exact List.Nodup.sublist (List.Sublist.filterMap _ (List.erase_sublist _ _)) h1
    · intro u hu hb hmem
      exact h2 u (List.mem_of_mem_erase hu) hb hmem
    · exact h3
    · intro p hp u hu hk
      exact h4 p hp u (List.mem_of_mem_erase hu) hk
    · exact h5
  cases k with
  | expiry hh => exact Inv_dismiss i h1
  | purge => exact Inv_purgeStep i h1

theorem Inv_advLoop : ∀ (f : Nat) (limit : Option Nat) {s : MState},
    Inv s → Inv (advLoop f limit s) := by
  intro f
  induction f with
  | zero =>
    intro limit s hI
    cases limit with
    | none => exact hI
    | some l => exact Inv_transfer rfl rfl rfl hI
  | succ f ih =>
    intro limit s hI
    simp only [advLoop]
    cases hp : pickNext limit s.pending with
    | none =>
      cases limit with
      | none => exact hI
      | some l => exact Inv_transfer rfl rfl rfl hI
    | some t => exact ih limit (Inv_fireTimer t hI)

theorem Inv_advanceBy (ms : Nat) {s : MState} (hI : Inv s) : Inv (advanceBy ms s) :=
  Inv_advLoop _ _ hI

theorem Inv_drainAll {s : MState} (hI : Inv s) : Inv (drainAll s) :=
  Inv_advLoop _ _ hI

theorem Inv_applyOp (op : Op) {s : MState} (hI : Inv s) : Inv (applyOp op s) := by
  cases op with
  | create m o => exact Inv_createToast m o hI
  | dismiss id => exact Inv_dismiss id hI
  | dismissAll => exact Inv_dismissAll hI
  | update id m o => exact Inv_update id m o hI
  | advance ms => exact Inv_advanceBy ms hI

theorem Inv_initialState (cfg : ToastConfig) : Inv (initialState cfg) := by
  refine ⟨?_, ?_, ?_, ?_, ?_⟩ <;> simp [initialState]

theorem Inv_runOps (ops : List Op) {s : MState} (hI : Inv s) : Inv (runOps ops s) := by
  induction ops generalizing s with
  | nil => exact hI
  | cons op ops ih => exact ih (Inv_applyOp op hI)

/-! ### dismissAll: immediate effect and what remains pending -/

theorem count_filterMap_onClose (c : Nat) (l : List Toast) :
    (l.filterMap Toast.onClose).count c = l.countP (fun t => t.onClose = some c) := by
  induction l with
  | nil => rfl
  | cons a l ih =>
    rw [List.filterMap_cons, List.countP_cons]
    cases ha : a.onClose with
    | none => simp [ha, ih]
    | some v =>
      rw [List.count_cons]
      simp [ha, ih]

theorem dismissAll_pending_purge {s : MState} (hI : Inv s) :
    ∀ t ∈ (dismissAll s).pending, t.kind = TimerKind.purge := by
  intro t ht
  obtain ⟨htp, htk⟩ := List.mem_filter.mp ht
  cases hk : t.kind with
  | purge => rfl
  | expiry hb =>
    exfalso
    obtain ⟨ha, hlk⟩ := Inv_expiry hI htp hk
    have hpair := lookupRef_mem hlk
    have := List.all_eq_true.mp htk _ hpair
    simp [hk] at this

theorem Obs_advLoop_empty_toasts : ∀ (f : Nat) (s : MState),
    s.toasts = [] → (∀ t ∈ s.pending, t.kind = TimerKind.purge) →
    Obs (advLoop f none s) = Obs s := by
  intro f
  induction f with
  | zero => intro s h1 h2; rfl
  | succ f ih =>
    intro s h1 h2
    cases hp : pickNext none s.pending with
    | none => simp only [advLoop, hp]; rfl
    | some t =>
      simp only [advLoop, hp]
      have htmem := (pickNext_mem_due hp).1
      have htk := h2 t htmem
      obtain ⟨k, i, d⟩ := t
      cases k with
      | expiry hh => simp at htk
      | purge =>
        have hfire_toasts : (fireTimer ⟨TimerKind.purge, i, d⟩ s).toasts = [] := by
          rw [fireTimer_toasts_purge, h1]
          rfl
        have hfire_log : (fireTimer ⟨TimerKind.purge, i, d⟩ s).log = s.log := by
          simp only [fireTimer, purgeStep]
          rw [h1]
          simp
        have hfire_pending : ∀ u ∈ (fireTimer ⟨TimerKind.purge, i, d⟩ s).pending,
            u.kind = TimerKind.purge := by
          rw [fireTimer_pending_purge]
          intro u hu
          exact h2 u (List.mem_of_mem_erase hu)
        rw [ih _ hfire_toasts hfire_pending]
        simp [Obs, hfire_toasts, hfire_log, h1]

/-- C5: immediately after `dismissAll` returns, the published list is
empty (no 300 ms wait), and the close callbacks invoked are exactly those
of the entries that were present — including already-removing ones — each
invoked once, appended to the log in list order. -/
theorem dismissAll_immediate (s : MState) :
    (dismissAll s).toasts = [] ∧
    (dismissAll s).log = s.log ++ s.toasts.filterMap Toast.onClose ∧
    (∀ c : Nat, (dismissAll s).log.count c
      = s.log.count c + s.toasts.countP (fun t => t.onClose = some c)) := by
  refine ⟨rfl, rfl, ?_⟩
  intro c
  show (s.log ++ s.toasts.filterMap Toast.onClose).count c = _
  rw [List.count_append, count_filterMap_onClose]

/-- C4 (amended): `dismissAll` cancels every pending expiry timer — in any
reachable state only purge timeouts survive it — but pending purge
timeouts are not cancelled; their later firing has no observable effect
(the list stays empty and no further close callback runs). -/
theorem dismissAll_cancels_expiry (s : MState) (hI : Inv s) :
    (∀ t ∈ (dismissAll s).pending, t.kind = TimerKind.purge) ∧
    Obs (drainAll (dismissAll s)) = Obs (dismissAll s) := by
  refine ⟨dismissAll_pending_purge hI, ?_⟩
  exact Obs_advLoop_empty_toasts _ _ rfl (dismissAll_pending_purge hI)

/-- C4 counterexample: after creating a persistent entry, dismissing it
(which schedules its 300 ms purge timeout) and then calling `dismissAll`,
a purge timeout is still pending — `dismissAll` did not cancel every timer
of every kind. -/
theorem dismissAll_leaves_purge_timer :
    (dismissAll (runOps [Op.create 0 { noOptions with duration := some 0 },
        Op.dismiss (Tid.auto 0)] (initialState DEFAULT_CONFIG))).pending
      = [⟨TimerKind.purge, Tid.auto 0, 300⟩] := by decide

/-- C4 witness for `dismissAll_cancels_expiry`. -/
theorem dismissAll_cancels_expiry_witness :
    Inv (runOps [Op.create 0 noOptions] (initialState DEFAULT_CONFIG)) ∧
    ((∀ t ∈ (dismissAll (runOps [Op.create 0 noOptions]
        (initialState DEFAULT_CONFIG))).pending, t.kind = TimerKind.purge) ∧
      Obs (drainAll (dismissAll (runOps [Op.create 0 noOptions]
        (initialState DEFAULT_CONFIG))))
        = Obs (dismissAll (runOps [Op.create 0 noOptions] (initialState DEFAULT_CONFIG)))) :=
  ⟨by decide, dismissAll_cancels_expiry _ (by decide)⟩

/-! ### At most one expiry timeout per id -/

theorem length_le_one_of_nodup_const {α : Type} {l : List α} {a : α}
    (hn : l.Nodup) (hc : ∀ x ∈ l, x = a) : l.length ≤ 1 := by
  cases l with
  | nil => simp
  | cons x xs =>
    cases xs with
    | nil => simp
    | cons y ys =>
      exfalso
      have hx := hc x (by simp)
      have hy := hc y (by simp)
      rw [List.nodup_cons] at hn
      exact hn.1 (by rw [hx, ← hy]; simp)

theorem filterMap_length_eq {α β : Type} (f : α → Option β) (l : List α)
    (h : ∀ x ∈ l, (f x).isSome) : (l.filterMap f).length = l.length := by
  induction l with
  | nil => rfl
  | cons a l ih =>
    rw [List.filterMap_cons]
    cases hf : f a with
    | none =>
      exfalso
      have := h a (by simp)
      rw [hf] at this
      cases this
    | some b =>
      simp only [List.length_cons]
      rw [ih (fun x hx => h x (List.mem_cons_of_mem _ hx))]

theorem countP_expiry_le_one {s : MState} (hI : Inv s) (id : Tid) :
    s.pending.countP (fun t => t.id = id && t.handle.isSome) ≤ 1 := by
  rw [List.countP_eq_length_filter]
  have hsome : ∀ t ∈ s.pending.filter (fun t => t.id = id && t.handle.isSome),
      (Timer.handle t).isSome := by
    intro t ht
    have h2 := (List.mem_filter.mp ht).2
    rw [Bool.and_eq_true] at h2
    exact h2.2
  rw [← filterMap_length_eq Timer.handle _ hsome]
  cases hl : lookupRef s.ref id with
  | some h0 =>
    apply @length_le_one_of_nodup_const Nat _ h0
    · exact List.Nodup.sublist (List.Sublist.filterMap _ (List.filter_sublist _)) hI.1
    · intro x hx
      obtain ⟨t, ht, hk⟩ := mem_filterMap_handle.mp hx
      obtain ⟨htp, htb⟩ := List.mem_filter.mp ht
      have htid : t.id = id := by
        rw [Bool.and_eq_true] at htb
        simpa using htb.1
      have hlk := (Inv_expiry hI htp hk).2
      rw [htid, hl] at hlk
      exact Option.some.inj hlk.symm
  | none =>
    have hnil : s.pending.filter (fun t => t.id = id && t.handle.isSome) = [] := by
      rw [List.filter_eq_nil_iff]
      intro t htp hcontra
      rw [Bool.and_eq_true] at hcontra
      obtain ⟨htid, hts⟩ := hcontra
      obtain ⟨hb, hbs⟩ := Option.isSome_iff_exists.mp hts
      have hk : t.kind = TimerKind.expiry hb := handle_some.mp hbs
      have hlk := (Inv_expiry hI htp hk).2
      rw [show t.id = id by simpa using htid, hl] at hlk
      cases hlk
    rw [hnil]
    simp

/-- C7 (amended): in every reachable state each entry id has at most one
pending expiry timeout (`setTimer` cancels the previous one before
scheduling); purge timeouts, in contrast, are untracked and can
accumulate — see the counterexample of two pending purge timeouts for one
live entry. -/
theorem expiry_timer_unique (ops : List Op) (cfg : ToastConfig) (id : Tid) :
    (runOps ops (initialState cfg)).pending.countP
      (fun t => t.id = id && t.handle.isSome) ≤ 1 :=
  countP_expiry_le_one (Inv_runOps ops (Inv_initialState cfg)) id

/-- C7 counterexample: dismissing the same live entry twice leaves two
pending purge (exit) timeouts for that single entry, so an entry can have
two pending timers of the same kind. -/
theorem double_dismiss_two_purge_timers :
    (runOps [Op.create 0 { noOptions with duration := some 0 },
      Op.dismiss (Tid.auto 0), Op.dismiss (Tid.auto 0)]
      (initialState DEFAULT_CONFIG)).pending
      = [⟨TimerKind.purge, Tid.auto 0, 300⟩, ⟨TimerKind.purge, Tid.auto 0, 300⟩] ∧
    (runOps [Op.create 0 { noOptions with duration := some 0 },
      Op.dismiss (Tid.auto 0), Op.dismiss (Tid.auto 0)]
      (initialState DEFAULT_CONFIG)).toasts.length = 1 := by decide

/-! ### What `update` does to the expiry timer -/

theorem filter_filter_of_imp {α : Type} {keep q : α → Bool} {l : List α}
    (h : ∀ x ∈ l, q x = true → keep x = true) :
    (l.filter keep).filter q = l.filter q := by
  induction l with
  | nil => rfl
  | cons a l ih =>
    have ih2 := ih (fun x hx => h x (List.mem_cons_of_mem _ hx))
    rw [List.filter_cons]
    cases hk : keep a with
    | true =>
      rw [if_pos (by simp [hk]), List.filter_cons, List.filter_cons, ih2]
    | false =>
      rw [if_neg (by simp [hk]), List.filter_cons]
      cases hq : q a with
      | false => rw [if_neg (by simp [hq]), ih2]
      | true =>
        exfalso
        rw [h a (by simp) hq] at hk
        cases hk

theorem filter_id_singleton (id : Tid) (ns nw : Nat) :
    List.filter (fun t => t.id = id && t.handle.isSome)
      [(⟨TimerKind.expiry ns, id, nw⟩ : Timer)] = [⟨TimerKind.expiry ns, id, nw⟩] := by
  simp [Timer.handle]

theorem filter_not_id_singleton (id : Tid) (ns nw : Nat) :
    List.filter (fun t => !(t.id = id && t.handle.isSome))
      [(⟨TimerKind.expiry ns, id, nw⟩ : Timer)] = [] := by
  simp [Timer.handle]

theorem clearTimer_pending_filter_compl {s : MState} (hI : Inv s) (id : Tid) :
    (clearTimer id s).pending.filter (fun t => !(t.id = id && t.handle.isSome))
      = s.pending.filter (fun t => !(t.id = id && t.handle.isSome)) := by
  unfold clearTimer
  cases hl : lookupRef s.ref id with
  | none => rfl
  | some h0 =>
    show ((s.pending.filter (fun t => t.kind ≠ TimerKind.expiry h0)).filter _) = _
    apply filter_filter_of_imp
    intro x hx hq
    by_contra hcontra
    have hk : x.kind = TimerKind.expiry h0 := by
      simpa using hcontra
    have hpair := lookupRef_mem hl
    have hxid : x.id = id := hI.2.2.2.1 (id, h0) hpair x hx hk
    rw [Bool.not_eq_true'] at hq
    simp [hxid, handle_some.mpr hk] at hq

/-- C1 (amended): when `update` provides a positive duration it cancels
the entry id's pending expiry timeout and schedules exactly one new one
with the new duration; when it provides duration 0, `setTimer` returns
before the `clearTimer` call, so the timer environment is left completely
unchanged — a previously scheduled expiry timeout stays alive and will
still auto-dismiss the entry. -/
theorem update_duration_semantics (s : MState) (id : Tid) (m : Nat) (o : ToastOptions)
    (d : Nat) (hI : Inv s) (hdur : o.duration = some d) :
    (0 < d →
      (update id m o s).pending.filter (fun t => t.id = id && t.handle.isSome)
        = [⟨TimerKind.expiry s.nextSeq, id, s.now + d⟩] ∧
      (update id m o s).pending.filter (fun t => !(t.id = id && t.handle.isSome))
        = s.pending.filter (fun t => !(t.id = id && t.handle.isSome))) ∧
    (d = 0 →
      (update id m o s).pending = s.pending ∧ (update id m o s).ref = s.ref) := by
  have hupd : update id m o s = setTimer id d
      { s with toasts := s.toasts.map (fun t => if t.id = id then applyUpdate m o t else t) } := by
    unfold update
    rw [hdur]
  have hI1 : Inv { s with
      toasts := s.toasts.map (fun t => if t.id = id then applyUpdate m o t else t) } :=
    Inv_transfer rfl rfl rfl hI
  constructor
  · intro hd
    rw [hupd]
    unfold setTimer
    rw [if_neg (by omega)]
    constructor
    · rw [List.filter_append]
      have hnil : (clearTimer id { s with
          toasts := s.toasts.map (fun t => if t.id = id then applyUpdate m o t else t)
          }).pending.filter (fun t => t.id = id && t.handle.isSome) = [] := by
        rw [List.filter_eq_nil_iff]
        intro t ht hcontra
        rw [Bool.and_eq_true] at hcontra
        obtain ⟨htid, hts⟩ := hcontra
        obtain ⟨hb, hbs⟩ := Option.isSome_iff_exists.mp hts
        exact clearTimer_expiry_ne hI1 id t ht hb (handle_some.mp hbs) (by simpa using htid)
      rw [hnil, List.nil_append, filter_id_singleton, clearTimer_nextSeq, clearTimer_now]
    · rw [List.filter_append, filter_not_id_singleton, List.append_nil]
      exact clearTimer_pending_filter_compl hI1 id
  · intro hd0
    subst hd0
    rw [hupd]
    unfold setTimer
    rw [if_pos (by omega)]
    exact ⟨rfl, rfl⟩

/-- C1 counterexample: create an entry with duration 1000 and close token
5, then `update` it with duration 0 (which per the claim must disable
auto-expiry); advancing 1300 ms nevertheless auto-dismisses it — the list
is empty and its close callback has fired, because `setTimer` returns on
`duration <= 0` before clearing the old expiry timeout. -/
theorem update_duration_zero_counterexample :
    (runOps [Op.create 7 { noOptions with duration := some 1000, onClose := some 5 },
      Op.update (Tid.auto 0) 7 { noOptions with duration := some 0 },
      Op.advance 1300] (initialState DEFAULT_CONFIG)).toasts = [] ∧
    (runOps [Op.create 7 { noOptions with duration := some 1000, onClose := some 5 },
      Op.update (Tid.auto 0) 7 { noOptions with duration := some 0 },
      Op.advance 1300] (initialState DEFAULT_CONFIG)).log = [5] := by decide

/-- C1 witness for `update_duration_semantics`. -/
theorem update_duration_semantics_witness :
    Inv (runOps [Op.create 3 { noOptions with duration := some 1000 }]
      (initialState DEFAULT_CONFIG)) ∧
    ({ noOptions with duration := some 500 } : ToastOptions).duration = some 500 ∧
    ((0 < 500 →
      (update (Tid.auto 0) 4 { noOptions with duration := some 500 }
          (runOps [Op.create 3 { noOptions with duration := some 1000 }]
            (initialState DEFAULT_CONFIG))).pending.filter
          (fun t => t.id = Tid.auto 0 && t.handle.isSome)
        = [⟨TimerKind.expiry (runOps [Op.create 3 { noOptions with duration := some 1000 }]
              (initialState DEFAULT_CONFIG)).nextSeq, Tid.auto 0,
            (runOps [Op.create 3 { noOptions with duration := some 1000 }]
              (initialState DEFAULT_CONFIG)).now + 500⟩] ∧
      (update (Tid.auto 0) 4 { noOptions with duration := some 500 }
          (runOps [Op.create 3 { noOptions with duration := some 1000 }]
            (initialState DEFAULT_CONFIG))).pending.filter
          (fun t => !(t.id = Tid.auto 0 && t.handle.isSome))
        = (runOps [Op.create 3 { noOptions with duration := some 1000 }]
            (initialState DEFAULT_CONFIG)).pending.filter
          (fun t => !(t.id = Tid.auto 0 && t.handle.isSome))) ∧
    (500 = 0 →
      (update (Tid.auto 0) 4 { noOptions with duration := some 500 }
          (runOps [Op.create 3 { noOptions with duration := some 1000 }]
            (initialState DEFAULT_CONFIG))).pending
        = (runOps [Op.create 3 { noOptions with duration := some 1000 }]
            (initialState DEFAULT_CONFIG)).pending ∧
      (update (Tid.auto 0) 4 { noOptions with duration := some 500 }
          (runOps [Op.create 3 { noOptions with duration := some 1000 }]
            (initialState DEFAULT_CONFIG))).ref
        = (runOps [Op.create 3 { noOptions with duration := some 1000 }]
            (initialState DEFAULT_CONFIG)).ref)) :=
  ⟨by decide, rfl, update_duration_semantics _ _ _ _ 500 (by decide) rfl⟩

/-! ### Step lemmas for timed advances and the timed lifecycle -/

theorem advLoop_none {f : Nat} {limit : Option Nat} {s : MState}
    (hp : pickNext limit s.pending = none) :
    advLoop f limit s = setLimitNow limit s := by
  cases f <;> simp [advLoop, hp]

theorem advRun_fire {limit : Option Nat} {s : MState} {t : Timer}
    (hp : pickNext limit s.pending = some t) :
    advLoop (dueMeasure limit s.pending) limit s
      = advLoop (dueMeasure limit (fireTimer t s).pending) limit (fireTimer t s) := by
  have h1 := measure_pos hp
  obtain ⟨mm, hm⟩ : ∃ mm, dueMeasure limit s.pending = mm + 1 :=
    ⟨dueMeasure limit s.pending - 1, by omega⟩
  rw [hm]
  have hstep : advLoop (mm + 1) limit s = advLoop mm limit (fireTimer t s) := by
    simp [advLoop, hp]
  rw [hstep]
  have hlt := dueMeasure_fire_lt hp
  exact advLoop_fuel_congr mm _ limit (fireTimer t s) (by omega) (le_refl _)

/-- C3: an entry created with positive duration `d` and close token `c`,
left alone otherwise, is still published but marked `removing` once
virtual time advances by `d` (its close callback not yet run), and a
further 300 ms advance removes it from the list and runs the callback
exactly once. -/
theorem timed_lifecycle (cfg : ToastConfig) (d m c : Nat)
    (hmax : 1 ≤ cfg.maxToasts) (hd : 0 < d) :
    (advanceBy d (createToast m { noOptions with duration := some d, onClose := some c }
        (initialState cfg)).2).toasts = [lifecycleToast cfg d m c true] ∧
    (advanceBy d (createToast m { noOptions with duration := some d, onClose := some c }
        (initialState cfg)).2).log = [] ∧
    (advanceBy 300 (advanceBy d (createToast m
        { noOptions with duration := some d, onClose := some c }
        (initialState cfg)).2)).toasts = [] ∧
    (advanceBy 300 (advanceBy d (createToast m
        { noOptions with duration := some d, onClose := some c }
        (initialState cfg)).2)).log = [c] := by
  have h1 : ¬ (1 > cfg.maxToasts) := by omega
  have h2 : ¬ (d ≤ 0) := by omega
  have hcreate : (createToast m { noOptions with duration := some d, onClose := some c }
      (initialState cfg)).2
    = { config := cfg, toasts := [lifecycleToast cfg d m c false],
        pending := [⟨TimerKind.expiry 0, Tid.auto 0, d⟩],
        ref := [(Tid.auto 0, 0)], nextSeq := 1, nextAuto := 1, now := 0, log := [] } := by
    simp [createToast, chooseId, generateToastId, orDefault, setTimer, clearTimer,
      lookupRef, refSet, initialState, noOptions, lifecycleToast, h1, h2, hd]
  rw [hcreate]
  have hA : ∀ toasts0 : List Toast,
      advanceBy d
        ({ config := cfg, toasts := toasts0,
           pending := [⟨TimerKind.expiry 0, Tid.auto 0, d⟩],
           ref := [(Tid.auto 0, 0)], nextSeq := 1, nextAuto := 1, now := 0,
           log := [] } : MState)
      = { config := cfg,
          toasts := toasts0.map
            (fun t => if t.id = Tid.auto 0 then { t with removing := true } else t),
          pending := [⟨TimerKind.purge, Tid.auto 0, d + 300⟩],
          ref := [], nextSeq := 1, nextAuto := 1, now := 0 + d, log := [] } := by
    intro toasts0
    have hpick : pickNext (some (0 + d)) ([⟨TimerKind.expiry 0, Tid.auto 0, d⟩] : List Timer)
        = some ⟨TimerKind.expiry 0, Tid.auto 0, d⟩ := by
      simp only [pickNext]
      rw [if_pos (by simp [isDue])]
    rw [advanceBy, advRun_fire hpick]
    have hfire : fireTimer ⟨TimerKind.expiry 0, Tid.auto 0, d⟩
        ({ config := cfg, toasts := toasts0,
           pending := [⟨TimerKind.expiry 0, Tid.auto 0, d⟩],
           ref := [(Tid.auto 0, 0)], nextSeq := 1, nextAuto := 1, now := 0,
           log := [] } : MState)
        = { config := cfg,
            toasts := toasts0.map
              (fun t => if t.id = Tid.auto 0 then { t with removing := true } else t),
            pending := [⟨TimerKind.purge, Tid.auto 0, d + 300⟩],
            ref := [], nextSeq := 1, nextAuto := 1, now := d, log := [] } := by
      simp [fireTimer, dismiss, clearTimer, lookupRef]
    rw [hfire]
    have hpick2 : pickNext (some (0 + d))
        ([⟨TimerKind.purge, Tid.auto 0, d + 300⟩] : List Timer) = none := by
      simp only [pickNext]
      rw [if_neg (by simp [isDue])]
    rw [advLoop_none hpick2]
    rfl
  rw [hA]
  have hmap : ([lifecycleToast cfg d m c false] : List Toast).map
        (fun t => if t.id = Tid.auto 0 then { t with removing := true } else t)
      = [lifecycleToast cfg d m c true] := by
    simp [lifecycleToast]
  rw [hmap]
  have hB : advanceBy 300
      ({ config := cfg, toasts := [lifecycleToast cfg d m c true],
         pending := [⟨TimerKind.purge, Tid.auto 0, d + 300⟩],
         ref := [], nextSeq := 1, nextAuto := 1, now := 0 + d,
         log := [] } : MState)
      = { config := cfg, toasts := [],
          pending := [], ref := [], nextSeq := 1, nextAuto := 1,
          now := 0 + d + 300, log := [c] } := by
    have hpick3 : pickNext (some (0 + d + 300))
        ([⟨TimerKind.purge, Tid.auto 0, d + 300⟩] : List Timer)
        = some ⟨TimerKind.purge, Tid.auto 0, d + 300⟩ := by
      simp only [pickNext]
      rw [if_pos (by simp [isDue])]
    rw [advanceBy, advRun_fire hpick3]
    have hfire2 : fireTimer ⟨TimerKind.purge, Tid.auto 0, d + 300⟩
        ({ config := cfg, toasts := [lifecycleToast cfg d m c true],
           pending := [⟨TimerKind.purge, Tid.auto 0, d + 300⟩],
           ref := [], nextSeq := 1, nextAuto := 1, now := 0 + d,
           log := [] } : MState)
        = { config := cfg, toasts := [], pending := [], ref := [],
            nextSeq := 1, nextAuto := 1, now := d + 300, log := [c] } := by
      simp [fireTimer, purgeStep, lifecycleToast]
    rw [hfire2]
    have hpick4 : pickNext (some (0 + d + 300)) ([] : List Timer) = none := rfl
    rw [advLoop_none hpick4]
    rfl
  rw [hB]
  exact ⟨rfl, rfl, rfl, rfl⟩

/-- Witness for `timed_lifecycle`: the default configuration, duration
1000 ms, message 1, close token 7. -/
theorem timed_lifecycle_witness :
    1 ≤ DEFAULT_CONFIG.maxToasts ∧ 0 < 1000 ∧
    ((advanceBy 1000 (createToast 1 { noOptions with duration := some 1000, onClose := some 7 }
        (initialState DEFAULT_CONFIG)).2).toasts
      = [lifecycleToast DEFAULT_CONFIG 1000 1 7 true] ∧
     (advanceBy 1000 (createToast 1 { noOptions with duration := some 1000, onClose := some 7 }
        (initialState DEFAULT_CONFIG)).2).log = [] ∧
     (advanceBy 300 (advanceBy 1000 (createToast 1
        { noOptions with duration := some 1000, onClose := some 7 }
        (initialState DEFAULT_CONFIG)).2)).toasts = [] ∧
     (advanceBy 300 (advanceBy 1000 (createToast 1
        { noOptions with duration := some 1000, onClose := some 7 }
        (initialState DEFAULT_CONFIG)).2)).log = [7]) :=
  ⟨by decide, by decide, timed_lifecycle DEFAULT_CONFIG 1000 1 7 (by decide) (by decide)⟩

/-! ### Removing every trace of an absent id is invisible to the drained
observables -/

theorem filter_comm {α : Type} (p q : α → Bool) (l : List α) :
    (l.filter p).filter q = (l.filter q).filter p := by
  induction l with
  | nil => rfl
  | cons a ts ih =>
    cases hp : p a <;> cases hq : q a <;>
      simp [List.filter_cons, hp, hq, ih]

theorem clearTimer_eq_some {i : Tid} {s : MState} {h0 : Nat}
    (hl : lookupRef s.ref i = some h0) :
    clearTimer i s
      = { s with
          pending := s.pending.filter (fun t => t.kind ≠ TimerKind.expiry h0),
          ref := s.ref.filter (fun p => p.1 ≠ i) } := by
  unfold clearTimer
  rw [hl]

theorem clearTimer_pending_strip {s : MState} (id : Tid)
    (h4 : ∀ h0, lookupRef s.ref id = some h0 →
      ∀ x ∈ s.pending, x.kind = TimerKind.expiry h0 → x.id = id) :
    (clearTimer id s).pending.filter (fun t => t.id ≠ id)
      = s.pending.filter (fun t => t.id ≠ id) := by
  unfold clearTimer
  cases hl : lookupRef s.ref id with
  | none => rfl
  | some h0 =>
    show (s.pending.filter _).filter _ = _
    apply filter_filter_of_imp
    intro x hx hq
    simp only [decide_eq_true_eq] at hq ⊢
    intro hk
    exact hq (h4 h0 hl x hx hk)

theorem clearTimer_ref_strip (id : Tid) (s : MState) :
    (clearTimer id s).ref.filter (fun p => p.1 ≠ id)
      = s.ref.filter (fun p => p.1 ≠ id) := by
  unfold clearTimer
  cases hl : lookupRef s.ref id with
  | none => rfl
  | some h0 =>
    show (s.ref.filter _).filter _ = _
    exact filter_filter_of_imp (fun x _ hq => hq)

theorem fireTimer_purge_eq (i : Tid) (d : Nat) (s : MState) :
    fireTimer ⟨TimerKind.purge, i, d⟩ s
      = { s with
          now := d,
          pending := s.pending.erase ⟨TimerKind.purge, i, d⟩,
          toasts := s.toasts.filter (fun t => t.id ≠ i),
          log := s.log ++ ((s.toasts.find? (fun t => t.id = i)).bind Toast.onClose).toList } :=
  rfl

theorem fireTimer_expiry_some {hh : Nat} {i : Tid} {d : Nat} {s : MState} {h0 : Nat}
    (hl : lookupRef s.ref i = some h0) :
    fireTimer ⟨TimerKind.expiry hh, i, d⟩ s
      = { s with
          now := d,
          toasts := s.toasts.map (fun u => if u.id = i then { u with removing := true } else u),
          pending := (s.pending.erase ⟨TimerKind.expiry hh, i, d⟩).filter
              (fun t => t.kind ≠ TimerKind.expiry h0)
            ++ [⟨TimerKind.purge, i, d + 300⟩],
          ref := s.ref.filter (fun p => p.1 ≠ i) } := by
  have hl2 : lookupRef
      ({ s with
         now := d,
         pending := s.pending.erase ⟨TimerKind.expiry hh, i, d⟩ } : MState).ref i = some h0 := hl
  simp only [fireTimer, dismiss]
  rw [clearTimer_eq_some hl2]

theorem fireTimer_expiry_none {hh : Nat} {i : Tid} {d : Nat} {s : MState}
    (hl : lookupRef s.ref i = none) :
    fireTimer ⟨TimerKind.expiry hh, i, d⟩ s
      = { s with
          now := d,
          toasts := s.toasts.map (fun u => if u.id = i then { u with removing := true } else u),
          pending := s.pending.erase ⟨TimerKind.expiry hh, i, d⟩
            ++ [⟨TimerKind.purge, i, d + 300⟩] } := by
  have hl2 : lookupRef
      ({ s with
         now := d,
         pending := s.pending.erase ⟨TimerKind.expiry hh, i, d⟩ } : MState).ref i = none := hl
  simp only [fireTimer, dismiss]
  rw [clearTimer_of_lookup_none hl2]

theorem fireTimer_strip_comm {k : TimerKind} {i : Tid} {d : Nat} {id : Tid} (s : MState)
    (hne : i ≠ id) :
    (fireTimer ⟨k, i, d⟩ (stripId id s)).toasts = (fireTimer ⟨k, i, d⟩ s).toasts ∧
    (fireTimer ⟨k, i, d⟩ (stripId id s)).log = (fireTimer ⟨k, i, d⟩ s).log ∧
    (fireTimer ⟨k, i, d⟩ (stripId id s)).pending
      = (fireTimer ⟨k, i, d⟩ s).pending.filter (fun t => t.id ≠ id) ∧
    (fireTimer ⟨k, i, d⟩ (stripId id s)).ref
      = (fireTimer ⟨k, i, d⟩ s).ref.filter (fun p => p.1 ≠ id) := by
  have hstrip : (stripId id s).ref = s.ref.filter (fun p => p.1 ≠ id) := rfl
  cases k with
  | purge =>
    rw [fireTimer_purge_eq, fireTimer_purge_eq]
    refine ⟨rfl, rfl, ?_, rfl⟩
    have hec : (s.pending.filter (fun t => t.id ≠ id)).erase (⟨TimerKind.purge, i, d⟩ : Timer)
        = (s.pending.erase ⟨TimerKind.purge, i, d⟩).filter (fun t => t.id ≠ id) :=
      filter_erase_comm (by simp [hne]) s.pending
    exact hec
  | expiry hh =>
    cases hl : lookupRef s.ref i with
    | none =>
      have hl2 : lookupRef (stripId id s).ref i = none := by
        rw [hstrip, lookupRef_filter_ne s.ref id i hne]
        exact hl
      rw [fireTimer_expiry_none hl, fireTimer_expiry_none hl2]
      refine ⟨rfl, rfl, ?_, rfl⟩
      have hec : (s.pending.filter (fun t => t.id ≠ id)).erase
            (⟨TimerKind.expiry hh, i, d⟩ : Timer)
          = (s.pending.erase ⟨TimerKind.expiry hh, i, d⟩).filter (fun t => t.id ≠ id) :=
        filter_erase_comm (by simp [hne]) s.pending
      have hgoal : (s.pending.filter (fun t => t.id ≠ id)).erase
              (⟨TimerKind.expiry hh, i, d⟩ : Timer)
            ++ [(⟨TimerKind.purge, i, d + 300⟩ : Timer)]
          = (s.pending.erase (⟨TimerKind.expiry hh, i, d⟩ : Timer)
              ++ [(⟨TimerKind.purge, i, d + 300⟩ : Timer)]).filter (fun t => t.id ≠ id) := by
        rw [List.filter_append, hec]
        simp [hne]
      exact hgoal
    | some h0 =>
      have hl2 : lookupRef (stripId id s).ref i = some h0 := by
        rw [hstrip, lookupRef_filter_ne s.ref id i hne]
        exact hl
      rw [fireTimer_expiry_some hl, fireTimer_expiry_some hl2]
      refine ⟨rfl, rfl, ?_, ?_⟩
      · have hec : (s.pending.filter (fun t => t.id ≠ id)).erase
              (⟨TimerKind.expiry hh, i, d⟩ : Timer)
            = (s.pending.erase ⟨TimerKind.expiry hh, i, d⟩).filter (fun t => t.id ≠ id) :=
          filter_erase_comm (by simp [hne]) s.pending
        have hgoal : ((s.pending.filter (fun t => t.id ≠ id)).erase
                (⟨TimerKind.expiry hh, i, d⟩ : Timer)).filter
                (fun t => t.kind ≠ TimerKind.expiry h0)
              ++ [(⟨TimerKind.purge, i, d + 300⟩ : Timer)]
            = ((s.pending.erase (⟨TimerKind.expiry hh, i, d⟩ : Timer)).filter
                  (fun t => t.kind ≠ TimerKind.expiry h0)
                ++ [(⟨TimerKind.purge, i, d + 300⟩ : Timer)]).filter (fun t => t.id ≠ id) := by
          rw [List.filter_append, hec, filter_comm]
          simp [hne]
        exact hgoal
      · exact filter_comm (fun p => p.1 ≠ id) (fun p => p.1 ≠ i) s.ref

theorem fireTimer_absent (id : Tid) {k : TimerKind} {d : Nat} {s : MState} (hI : Inv s)
    (hlive : ∀ x ∈ s.toasts, x.id ≠ id) :
    (fireTimer ⟨k, id, d⟩ s).toasts = s.toasts ∧
    (fireTimer ⟨k, id, d⟩ s).log = s.log ∧
    (fireTimer ⟨k, id, d⟩ s).pending.filter (fun t => t.id ≠ id)
      = s.pending.filter (fun t => t.id ≠ id) ∧
    (fireTimer ⟨k, id, d⟩ s).ref.filter (fun p => p.1 ≠ id)
      = s.ref.filter (fun p => p.1 ≠ id) := by
  have htoasts : s.toasts.filter (fun t => t.id ≠ id) = s.toasts :=
    List.filter_eq_self.mpr (fun x hx => by simpa using hlive x hx)
  have hfind : s.toasts.find? (fun t => t.id = id) = none :=
    List.find?_eq_none.mpr (fun x hx => by simpa using hlive x hx)
  have hmap : s.toasts.map (fun u => if u.id = id then { u with removing := true } else u)
      = s.toasts :=
    map_eq_self_of (fun x hx => by rw [if_neg (hlive x hx)])
  have herase : ∀ kk : TimerKind,
      (s.pending.erase (⟨kk, id, d⟩ : Timer)).filter (fun t => t.id ≠ id)
        = s.pending.filter (fun t => t.id ≠ id) :=
    fun kk => erase_filter_of_neg (by simp) s.pending
  cases k with
  | purge =>
    rw [fireTimer_purge_eq]
    refine ⟨htoasts, ?_, herase TimerKind.purge, rfl⟩
    show s.log ++ ((s.toasts.find? (fun t => t.id = id)).bind Toast.onClose).toList = s.log
    rw [hfind]
    simp
  | expiry hh =>
    cases hl : lookupRef s.ref id with
    | none =>
      rw [fireTimer_expiry_none hl]
      refine ⟨hmap, rfl, ?_, rfl⟩
      have hgoal : (s.pending.erase (⟨TimerKind.expiry hh, id, d⟩ : Timer)
            ++ [(⟨TimerKind.purge, id, d + 300⟩ : Timer)]).filter (fun t => t.id ≠ id)
          = s.pending.filter (fun t => t.id ≠ id) := by
        rw [List.filter_append, herase (TimerKind.expiry hh)]
        simp
      exact hgoal
    | some h0 =>
      rw [fireTimer_expiry_some hl]
      refine ⟨hmap, rfl, ?_, ?_⟩
      · have hred : ((s.pending.erase (⟨TimerKind.expiry hh, id, d⟩ : Timer)).filter
              (fun t => t.kind ≠ TimerKind.expiry h0)).filter (fun t => t.id ≠ id)
            = (s.pending.erase ⟨TimerKind.expiry hh, id, d⟩).filter (fun t => t.id ≠ id) := by
          apply filter_filter_of_imp
          intro x hx hq
          simp only [decide_eq_true_eq] at hq ⊢
          intro hk
          exact hq (hI.2.2.2.1 (id, h0) (lookupRef_mem hl) x (List.mem_of_mem_erase hx) hk)
        have hgoal : ((s.pending.erase (⟨TimerKind.expiry hh, id, d⟩ : Timer)).filter
                (fun t => t.kind ≠ TimerKind.expiry h0)
              ++ [(⟨TimerKind.purge, id, d + 300⟩ : Timer)]).filter (fun t => t.id ≠ id)
            = s.pending.filter (fun t => t.id ≠ id) := by
          rw [List.filter_append, hred, herase (TimerKind.expiry hh)]
          simp
        exact hgoal
      · have hgoal : (s.ref.filter (fun p => p.1 ≠ id)).filter (fun p => p.1 ≠ id)
            = s.ref.filter (fun p => p.1 ≠ id) :=
          filter_filter_of_imp (fun x _ hq => hq)
        exact hgoal

theorem Obs_drainAll_strip :
    ∀ (n : Nat) (s : MState) (id : Tid),
    dueMeasure none s.pending ≤ n → Inv s →
    (∀ x ∈ s.toasts, x.id ≠ id) →
    Obs (drainAll s) = Obs (drainAll (stripId id s)) := by
  intro n
  induction n with
  | zero =>
    intro s id hn hI hlive
    have hnil : s.pending = [] := by
      cases hp : s.pending with
      | nil => rfl
      | cons t ts =>
        exfalso
        have h1 : 1 ≤ dueWeight none t := one_le_dueWeight rfl
        have h2 : dueMeasure none s.pending = dueWeight none t + dueMeasure none ts := by
          rw [hp, dueMeasure_cons]
        omega
    have hnil2 : (stripId id s).pending = [] := by
      show s.pending.filter _ = []
      rw [hnil]
      rfl
    rw [drainAll_nil hnil, drainAll_nil hnil2]
    rfl
  | succ n ih =>
    intro s id hn hI hlive
    cases hpk : pickNext none s.pending with
    | none =>
      have hnil : s.pending = [] := pickNext_none_eq_nil hpk
      have hnil2 : (stripId id s).pending = [] := by
        show s.pending.filter _ = []
        rw [hnil]
        rfl
      rw [drainAll_nil hnil, drainAll_nil hnil2]
      rfl
    | some t =>
      have hmeas : dueMeasure none (fireTimer t s).pending ≤ n := by
        have := dueMeasure_fire_lt hpk
        omega
      have hI2 : Inv (fireTimer t s) := Inv_fireTimer t hI
      have hlive2 : ∀ x ∈ (fireTimer t s).toasts, x.id ≠ id := by
        intro x hx
        obtain ⟨y, hy, hxy⟩ := fireTimer_toasts_ids hx
        rw [hxy]
        exact hlive y hy
      obtain ⟨k, i, dl⟩ := t
      by_cases hti : i = id
      · subst hti
        rw [drainAll_fire hpk, ih (fireTimer ⟨k, i, dl⟩ s) i hmeas hI2 hlive2]
        obtain ⟨ht, hg, hp2, hr⟩ := @fireTimer_absent i k dl s hI hlive
        exact Obs_drainAll_congr hp2 ht hr hg
      · have hpks : pickNext none (stripId id s).pending = some ⟨k, i, dl⟩ := by
          show pickNext none (s.pending.filter _) = _
          exact pickNext_filter hpk (by simp [hti])
        rw [drainAll_fire hpk, drainAll_fire hpks,
          ih (fireTimer ⟨k, i, dl⟩ s) id hmeas hI2 hlive2]
        obtain ⟨ht, hg, hp2, hr⟩ := @fireTimer_strip_comm k i dl id s hti
        exact Obs_drainAll_congr hp2.symm ht.symm hr.symm hg.symm

theorem dismiss_unknown_components (id : Tid) {s : MState} (hI : Inv s) :
    (dismiss id s).pending.filter (fun t => t.id ≠ id)
      = s.pending.filter (fun t => t.id ≠ id) ∧
    (dismiss id s).ref.filter (fun p => p.1 ≠ id)
      = s.ref.filter (fun p => p.1 ≠ id) := by
  constructor
  · rw [dismiss_pending, List.filter_append]
    have h1 : List.filter (fun t => t.id ≠ id) [(⟨TimerKind.purge, id, s.now + 300⟩ : Timer)]
        = [] := by simp
    rw [h1, List.append_nil]
    exact clearTimer_pending_strip id (fun h0 hl x hx hk =>
      hI.2.2.2.1 (id, h0) (lookupRef_mem hl) x hx hk)
  · rw [dismiss_ref]
    exact clearTimer_ref_strip id s

/-- C9: calling `dismiss` or `update` with an id that matches no live
entry never raises and is a silent no-op — the published list is unchanged
immediately, and after every pending timeout has fired the observable
state (published list and close-callback log) is exactly what it would
have been without the call. -/
theorem unknown_id_noop (s : MState) (id : Tid) (m : Nat) (o : ToastOptions)
    (hI : Inv s) (hlive : ∀ x ∈ s.toasts, x.id ≠ id) :
    ((dismiss id s).toasts = s.toasts ∧
      Obs (drainAll (dismiss id s)) = Obs (drainAll s)) ∧
    ((update id m o s).toasts = s.toasts ∧
      Obs (drainAll (update id m o s)) = Obs (drainAll s)) := by
  have hmap : s.toasts.map (fun t => if t.id = id then { t with removing := true } else t)
      = s.toasts :=
    map_eq_self_of (fun x hx => by rw [if_neg (hlive x hx)])
  have hmap2 : s.toasts.map (fun t => if t.id = id then applyUpdate m o t else t) = s.toasts :=
    map_eq_self_of (fun x hx => by rw [if_neg (hlive x hx)])
  constructor
  · have hdt : (dismiss id s).toasts = s.toasts := by
      rw [dismiss_toasts, hmap]
    refine ⟨hdt, ?_⟩
    have hId : Inv (dismiss id s) := Inv_dismiss id hI
    have hlived : ∀ x ∈ (dismiss id s).toasts, x.id ≠ id := by
      rw [hdt]
      exact hlive
    obtain ⟨hdp, hdr⟩ := dismiss_unknown_components id hI
    calc Obs (drainAll (dismiss id s))
        = Obs (drainAll (stripId id (dismiss id s))) :=
          Obs_drainAll_strip _ _ id (le_refl _) hId hlived
      _ = Obs (drainAll (stripId id s)) :=
          Obs_drainAll_congr hdp hdt hdr (clearTimer_log id s)
      _ = Obs (drainAll s) :=
          (Obs_drainAll_strip _ _ id (le_refl _) hI hlive).symm
  · cases hdur : o.duration with
    | none =>
      have hueq : update id m o s = s := by
        unfold update
        rw [hdur, hmap2]
      rw [hueq]
      exact ⟨rfl, rfl⟩
    | some d2 =>
      have hueq : update id m o s = setTimer id d2 s := by
        unfold update
        rw [hdur, hmap2]
      by_cases hd2 : d2 ≤ 0
      · have hueq2 : update id m o s = s := by
          rw [hueq]
          unfold setTimer
          rw [if_pos hd2]
        rw [hueq2]
        exact ⟨rfl, rfl⟩
      · have hst : setTimer id d2 s
            = { clearTimer id s with
                pending := (clearTimer id s).pending
                  ++ [⟨TimerKind.expiry (clearTimer id s).nextSeq, id,
                      (clearTimer id s).now + d2⟩],
                ref := refSet id (clearTimer id s).nextSeq (clearTimer id s).ref,
                nextSeq := (clearTimer id s).nextSeq + 1 } := by
          unfold setTimer
          rw [if_neg hd2]
        have hts : (setTimer id d2 s).toasts = s.toasts := by
          rw [hst]
          exact clearTimer_toasts id s
        have hsp : (setTimer id d2 s).pending.filter (fun t => t.id ≠ id)
            = s.pending.filter (fun t => t.id ≠ id) := by
          rw [hst]
          have h1 : ((clearTimer id s).pending
                ++ [(⟨TimerKind.expiry (clearTimer id s).nextSeq, id,
                    (clearTimer id s).now + d2⟩ : Timer)]).filter (fun t => t.id ≠ id)
              = (clearTimer id s).pending.filter (fun t => t.id ≠ id) := by
            rw [List.filter_append]
            simp
          have h2 := clearTimer_pending_strip id (fun h0 hl x hx hk =>
            hI.2.2.2.1 (id, h0) (lookupRef_mem hl) x hx hk)
          exact h1.trans h2
        have hsr : (setTimer id d2 s).ref.filter (fun p => p.1 ≠ id)
            = s.ref.filter (fun p => p.1 ≠ id) := by
          rw [hst]
          have h1 : (refSet id (clearTimer id s).nextSeq (clearTimer id s).ref).filter
                (fun p => p.1 ≠ id)
              = ((clearTimer id s).ref.filter (fun p => p.1 ≠ id)).filter
                (fun p => p.1 ≠ id) := by
            unfold refSet
            rw [List.filter_cons, if_neg (by simp)]
          have h2 : ((clearTimer id s).ref.filter (fun p => p.1 ≠ id)).filter
                (fun p => p.1 ≠ id)
              = (clearTimer id s).ref.filter (fun p => p.1 ≠ id) :=
            filter_filter_of_imp (fun x _ hq => hq)
          exact (h1.trans h2).trans (clearTimer_ref_strip id s)
        have hsl : (setTimer id d2 s).log = s.log := by
          rw [hst]
          exact clearTimer_log id s
        have hIs : Inv (setTimer id d2 s) := Inv_setTimer id d2 hI
        have hlives : ∀ x ∈ (setTimer id d2 s).toasts, x.id ≠ id := by
          rw [hts]
          exact hlive
        rw [hueq]
        refine ⟨hts, ?_⟩
        calc Obs (drainAll (setTimer id d2 s))
            = Obs (drainAll (stripId id (setTimer id d2 s))) :=
              Obs_drainAll_strip _ _ id (le_refl _) hIs hlives
          _ = Obs (drainAll (stripId id s)) := Obs_drainAll_congr hsp hts hsr hsl
          _ = Obs (drainAll s) :=
              (Obs_drainAll_strip _ _ id (le_refl _) hI hlive).symm

/-- Witness for `unknown_id_noop`: a provider holding one auto-id entry,
probed with the caller-chosen id "zz". -/
theorem unknown_id_noop_witness :
    Inv (runOps [Op.create 1 noOptions] (initialState DEFAULT_CONFIG)) ∧
    (∀ x ∈ (runOps [Op.create 1 noOptions] (initialState DEFAULT_CONFIG)).toasts,
      x.id ≠ Tid.user "zz") ∧
    (((dismiss (Tid.user "zz") (runOps [Op.create 1 noOptions]
          (initialState DEFAULT_CONFIG))).toasts
        = (runOps [Op.create 1 noOptions] (initialState DEFAULT_CONFIG)).toasts ∧
      Obs (drainAll (dismiss (Tid.user "zz") (runOps [Op.create 1 noOptions]
          (initialState DEFAULT_CONFIG))))
        = Obs (drainAll (runOps [Op.create 1 noOptions] (initialState DEFAULT_CONFIG)))) ∧
     ((update (Tid.user "zz") 0 noOptions (runOps [Op.create 1 noOptions]
          (initialState DEFAULT_CONFIG))).toasts
        = (runOps [Op.create 1 noOptions] (initialState DEFAULT_CONFIG)).toasts ∧
      Obs (drainAll (update (Tid.user "zz") 0 noOptions (runOps [Op.create 1 noOptions]
          (initialState DEFAULT_CONFIG))))
        = Obs (drainAll (runOps [Op.create 1 noOptions] (initialState DEFAULT_CONFIG))))) :=
  ⟨by decide, by decide, unknown_id_noop (runOps [Op.create 1 noOptions]
    (initialState DEFAULT_CONFIG)) (Tid.user "zz") 0 noOptions (by decide) (by decide)⟩

/-! ### Capacity: the per-position entry count never exceeds `maxToasts` -/

theorem chooseId_toasts (o : Option Tid) (s : MState) : (chooseId o s).2.toasts = s.toasts := by
  cases o with
  | none => rfl
  | some i =>
    by_cases hi : i = Tid.user ""
    · simp [chooseId, generateToastId, hi]
    · simp [chooseId, generateToastId, hi]

theorem chooseId_config (o : Option Tid) (s : MState) : (chooseId o s).2.config = s.config := by
  cases o with
  | none => rfl
  | some i =>
    by_cases hi : i = Tid.user ""
    · simp [chooseId, generateToastId, hi]
    · simp [chooseId, generateToastId, hi]

theorem chooseId_log (o : Option Tid) (s : MState) : (chooseId o s).2.log = s.log := by
  cases o with
  | none => rfl
  | some i =>
    by_cases hi : i = Tid.user ""
    · simp [chooseId, generateToastId, hi]
    · simp [chooseId, generateToastId, hi]

theorem clearTimer_config (id : Tid) (s : MState) : (clearTimer id s).config = s.config := by
  unfold clearTimer
  split <;> rfl

theorem clearTimer_nextAuto (id : Tid) (s : MState) : (clearTimer id s).nextAuto = s.nextAuto := by
  unfold clearTimer
  split <;> rfl

theorem setTimer_toasts (id : Tid) (d : Nat) (s : MState) :
    (setTimer id d s).toasts = s.toasts := by
  unfold setTimer
  split
  · rfl
  · exact clearTimer_toasts id s

theorem setTimer_config (id : Tid) (d : Nat) (s : MState) :
    (setTimer id d s).config = s.config := by
  unfold setTimer
  split
  · rfl
  · exact clearTimer_config id s

theorem setTimer_nextAuto (id : Tid) (d : Nat) (s : MState) :
    (setTimer id d s).nextAuto = s.nextAuto := by
  unfold setTimer
  split
  · rfl
  · exact clearTimer_nextAuto id s

theorem setTimer_log (id : Tid) (d : Nat) (s : MState) :
    (setTimer id d s).log = s.log := by
  unfold setTimer
  split
  · rfl
  · exact clearTimer_log id s

theorem foldl_clearTimer_toasts (l : List Toast) (s : MState) :
    (l.foldl (fun acc t => clearTimer t.id acc) s).toasts = s.toasts := by
  induction l generalizing s with
  | nil => rfl
  | cons a l ih => rw [List.foldl_cons, ih, clearTimer_toasts]

theorem foldl_clearTimer_config (l : List Toast) (s : MState) :
    (l.foldl (fun acc t => clearTimer t.id acc) s).config = s.config := by
  induction l generalizing s with
  | nil => rfl
  | cons a l ih => rw [List.foldl_cons, ih, clearTimer_config]

theorem foldl_clearTimer_nextAuto (l : List Toast) (s : MState) :
    (l.foldl (fun acc t => clearTimer t.id acc) s).nextAuto = s.nextAuto := by
  induction l generalizing s with
  | nil => rfl
  | cons a l ih => rw [List.foldl_cons, ih, clearTimer_nextAuto]

theorem foldl_clearTimer_log (l : List Toast) (s : MState) :
    (l.foldl (fun acc t => clearTimer t.id acc) s).log = s.log := by
  induction l generalizing s with
  | nil => rfl
  | cons a l ih => rw [List.foldl_cons, ih, clearTimer_log]

theorem createToast_shape (m : Nat) (o : ToastOptions) (s : MState) :
    ∃ (toast : Toast) (pos : String),
      toast.position = pos ∧
      toast.id = (chooseId o.id s).1 ∧
      (createToast m o s).2.toasts
        = (if (toast :: s.toasts.filter (fun t => t.position = pos)).length
              > s.config.maxToasts then
            (toast :: s.toasts.filter (fun t => t.position = pos)).take s.config.maxToasts
              ++ s.toasts.filter (fun t => t.position ≠ pos)
          else (toast :: s.toasts.filter (fun t => t.position = pos))
              ++ s.toasts.filter (fun t => t.position ≠ pos)) ∧
      (createToast m o s).2.config = s.config ∧
      (createToast m o s).2.nextAuto = (chooseId o.id s).2.nextAuto ∧
      (createToast m o s).2.log = s.log := by
  refine ⟨{ id := (chooseId o.id s).1, message := m,
            type := orDefault o.type "info",
            duration := o.duration.getD s.config.defaultDuration,
            dismissible := o.dismissible.getD true,
            position := orDefault o.position s.config.defaultPosition,
            variant := orDefault o.variant s.config.defaultVariant,
            icon := o.icon, action := o.action, data := o.data, onClose := o.onClose,
            createdAt := (chooseId o.id s).2.now, visible := true, removing := false },
    orDefault o.position s.config.defaultPosition, rfl, rfl, ?_, ?_, ?_, ?_⟩
  · simp only [createToast]
    rw [chooseId_config, chooseId_toasts]
    split
    · rw [setTimer_toasts]
      split
      · simp
      · simp
    · split
      · simp
      · simp
  · simp only [createToast]
    split
    · rw [setTimer_config]
      split
      · simp [foldl_clearTimer_config, chooseId_config]
      · simp [chooseId_config]
    · split
      · simp [foldl_clearTimer_config, chooseId_config]
      · simp [chooseId_config]
  · simp only [createToast]
    split
    · rw [setTimer_nextAuto]
      split
      · simp [foldl_clearTimer_nextAuto]
      · simp
    · split
      · simp [foldl_clearTimer_nextAuto]
      · simp
  · simp only [createToast]
    split
    · rw [setTimer_log]
      split
      · simp [foldl_clearTimer_log, chooseId_log]
      · simp [chooseId_log]
    · split
      · simp [foldl_clearTimer_log, chooseId_log]
      · simp [chooseId_log]

theorem posCount_le_length (p : String) (l : List Toast) : posCount p l ≤ l.length :=
  List.length_filter_le _ l

theorem posCount_append (p : String) (a b : List Toast) :
    posCount p (a ++ b) = posCount p a + posCount p b := by
  unfold posCount
  rw [List.filter_append, List.length_append]

theorem posCount_other_bucket {pos : String} (p : String) (l : List Toast) :
    posCount p (l.filter (fun t => t.position ≠ pos)) ≤ posCount p l := by
  unfold posCount
  rw [filter_comm]
  exact List.length_filter_le _ _

theorem posCount_all_pos {pos : String} {l : List Toast} (hall : ∀ x ∈ l, x.position = pos)
    (p : String) (hp : p ≠ pos) : posCount p l = 0 := by
  unfold posCount
  have hnil : l.filter (fun t => t.position = p) = [] := by
    rw [List.filter_eq_nil_iff]
    intro x hx hc
    simp only [decide_eq_true_eq] at hc
    exact hp (hc.symm.trans (hall x hx))
  rw [hnil]
  rfl

theorem posCount_self_zero (pos : String) (l : List Toast) :
    posCount pos (l.filter (fun t => t.position ≠ pos)) = 0 := by
  unfold posCount
  have hnil : (l.filter (fun t => t.position ≠ pos)).filter (fun t => t.position = pos)
      = [] := by
    rw [List.filter_eq_nil_iff]
    intro x hx hc
    have hx2 := (List.mem_filter.mp hx).2
    simp only [decide_eq_true_eq] at hc hx2
    exact hx2 hc
  rw [hnil]
  rfl

theorem posCount_map_eq {f : Toast → Toast} (hf : ∀ x, (f x).position = x.position)
    (p : String) (l : List Toast) : posCount p (l.map f) = posCount p l := by
  induction l with
  | nil => rfl
  | cons a l ih =>
    have ih2 : ((l.map f).filter (fun t => t.position = p)).length
        = (l.filter (fun t => t.position = p)).length := ih
    unfold posCount
    rw [List.map_cons, List.filter_cons, List.filter_cons, hf a]
    by_cases hap : a.position = p
    · rw [if_pos (by simp [hap]), if_pos (by simp [hap]), List.length_cons,
        List.length_cons, ih2]
    · rw [if_neg (by simp [hap]), if_neg (by simp [hap])]
      exact ih2

theorem posCount_dismiss (id : Tid) (p : String) (s : MState) :
    posCount p (dismiss id s).toasts = posCount p s.toasts := by
  rw [dismiss_toasts]
  exact posCount_map_eq (fun x => by by_cases hx : x.id = id <;> simp [hx]) p s.toasts

theorem fireTimer_config (t : Timer) (s : MState) : (fireTimer t s).config = s.config := by
  obtain ⟨k, i, d⟩ := t
  cases k with
  | expiry hh => exact clearTimer_config i _
  | purge => rfl

theorem posCount_fireTimer_le (t : Timer) (p : String) (s : MState) :
    posCount p (fireTimer t s).toasts ≤ posCount p s.toasts := by
  obtain ⟨k, i, d⟩ := t
  cases k with
  | expiry hh =>
    rw [fireTimer_toasts_expiry]
    exact le_of_eq (posCount_map_eq (fun x => by by_cases hx : x.id = i <;> simp [hx]) p
      s.toasts)
  | purge =>
    rw [fireTimer_toasts_purge]
    unfold posCount
    rw [filter_comm]
    exact List.length_filter_le _ _

theorem posCount_advLoop_le : ∀ (f : Nat) (limit : Option Nat) (s : MState),
    (advLoop f limit s).config = s.config ∧
    ∀ p, posCount p (advLoop f limit s).toasts ≤ posCount p s.toasts := by
  intro f
  induction f with
  | zero =>
    intro limit s
    show (setLimitNow limit s).config = s.config ∧ _
    cases limit <;> exact ⟨rfl, fun p => le_refl _⟩
  | succ f ih =>
    intro limit s
    cases hpk : pickNext limit s.pending with
    | none =>
      simp only [advLoop, hpk]
      cases limit <;> exact ⟨rfl, fun p => le_refl _⟩
    | some t =>
      simp only [advLoop, hpk]
      obtain ⟨hc, hb⟩ := ih limit (fireTimer t s)
      exact ⟨hc.trans (fireTimer_config t s),
        fun p => le_trans (hb p) (posCount_fireTimer_le t p s)⟩

theorem posCount_bound_applyOp {s : MState} (op : Op) (hop : noUpdateOp op = true)
    (hb : ∀ p, posCount p s.toasts ≤ s.config.maxToasts) :
    (applyOp op s).config = s.config ∧
    ∀ p, posCount p (applyOp op s).toasts ≤ s.config.maxToasts := by
  cases op with
  | update id m o => simp [noUpdateOp] at hop
  | dismissAll =>
    refine ⟨rfl, fun p => ?_⟩
    show posCount p [] ≤ _
    exact Nat.zero_le _
  | dismiss id =>
    refine ⟨clearTimer_config id s, fun p => ?_⟩
    rw [show applyOp (Op.dismiss id) s = dismiss id s from rfl, posCount_dismiss]
    exact hb p
  | advance ms =>
    obtain ⟨hc, hble⟩ := posCount_advLoop_le (dueMeasure (some (s.now + ms)) s.pending)
      (some (s.now + ms)) s
    exact ⟨hc, fun p => le_trans (hble p) (hb p)⟩
  | create m o =>
    obtain ⟨toast, pos, hpos, hid, htoasts, hconf, hauto, hlog⟩ := createToast_shape m o s
    refine ⟨hconf, fun p => ?_⟩
    show posCount p (createToast m o s).2.toasts ≤ _
    rw [htoasts]
    by_cases hp : p = pos
    · subst hp
      split
      · rw [posCount_append]
        have h1 : posCount p ((toast :: s.toasts.filter (fun t => t.position = p)).take
            s.config.maxToasts) ≤ s.config.maxToasts :=
          le_trans (posCount_le_length _ _) (List.length_take_le _ _)
        have h2 := posCount_self_zero p s.toasts
        omega
      · rw [posCount_append]
        rename_i hguard
        have hlen : (toast :: s.toasts.filter (fun t => t.position = p)).length
            ≤ s.config.maxToasts := by omega
        have h1 : posCount p (toast :: s.toasts.filter (fun t => t.position = p))
            ≤ s.config.maxToasts := le_trans (posCount_le_length _ _) hlen
        have h2 := posCount_self_zero p s.toasts
        omega
    · have hall : ∀ x ∈ toast :: s.toasts.filter (fun t => t.position = pos),
          x.position = pos := by
        intro x hx
        rcases List.mem_cons.mp hx with h1 | h1
        · rw [h1, hpos]
        · have := (List.mem_filter.mp h1).2
          simpa using this
      split
      · rw [posCount_append]
        have h1 : posCount p ((toast :: s.toasts.filter (fun t => t.position = pos)).take
            s.config.maxToasts) = 0 :=
          posCount_all_pos (fun x hx => hall x ((List.take_sublist _ _).mem hx)) p hp
        have h2 : posCount p (s.toasts.filter (fun t => t.position ≠ pos))
            ≤ posCount p s.toasts := posCount_other_bucket p s.toasts
        have h3 := hb p
        omega
      · rw [posCount_append]
        have h1 : posCount p (toast :: s.toasts.filter (fun t => t.position = pos)) = 0 :=
          posCount_all_pos hall p hp
        have h2 : posCount p (s.toasts.filter (fun t => t.position ≠ pos))
            ≤ posCount p s.toasts := posCount_other_bucket p s.toasts
        have h3 := hb p
        omega

theorem posCount_bound_runOps : ∀ (ops : List Op) (s : MState),
    (∀ op ∈ ops, noUpdateOp op = true) →
    (∀ p, posCount p s.toasts ≤ s.config.maxToasts) →
    (runOps ops s).config = s.config ∧
    ∀ p, posCount p (runOps ops s).toasts ≤ s.config.maxToasts := by
  intro ops
  induction ops with
  | nil => intro s _ hb; exact ⟨rfl, hb⟩
  | cons op ops ih =>
    intro s hops hb
    obtain ⟨hc1, hb1⟩ := posCount_bound_applyOp op (hops op (List.mem_cons_self _ _)) hb
    have hb2 : ∀ p, posCount p (applyOp op s).toasts ≤ (applyOp op s).config.maxToasts := by
      intro p
      rw [hc1]
      exact hb1 p
    obtain ⟨hc3, hb3⟩ := ih (applyOp op s) (fun o ho => hops o (List.mem_cons_of_mem _ ho)) hb2
    refine ⟨hc3.trans hc1, fun p => ?_⟩
    have h4 := hb3 p
    rw [hc1] at h4
    exact h4

/-- C2: under any sequence of commands that does not use `update`, no
position bucket ever holds more than `maxToasts` entries; and in the
capacity scenario of the spec (six creates into one bucket with the default
maximum of five) exactly the five most recently created entries remain,
newest first, the close callback of the evicted oldest entry is never invoked
(the log stays empty), and no timer of the evicted entry survives. -/
theorem capacity_bound (ops : List Op) (cfg : ToastConfig)
    (hops : ∀ op ∈ ops, noUpdateOp op = true) :
    (∀ p, posCount p (runOps ops (initialState cfg)).toasts ≤ cfg.maxToasts) ∧
    ((runOps (scenarioOps "top-right" 6) (initialState DEFAULT_CONFIG)).toasts
        = [plainToast DEFAULT_CONFIG "top-right" 5, plainToast DEFAULT_CONFIG "top-right" 4,
           plainToast DEFAULT_CONFIG "top-right" 3, plainToast DEFAULT_CONFIG "top-right" 2,
           plainToast DEFAULT_CONFIG "top-right" 1] ∧
      (runOps (scenarioOps "top-right" 6) (initialState DEFAULT_CONFIG)).log = [] ∧
      (∀ t ∈ (runOps (scenarioOps "top-right" 6) (initialState DEFAULT_CONFIG)).pending,
        t.id ≠ Tid.auto 0)) := by
  constructor
  · exact (posCount_bound_runOps ops (initialState cfg) hops
      (fun p => Nat.zero_le _)).2
  · exact ⟨by decide, by decide, by decide⟩

/-- Witness for `capacity_bound`: a create / dismiss / advance command
sequence with the default configuration. -/
theorem capacity_bound_witness :
    (∀ op ∈ [Op.create 0 noOptions, Op.dismiss (Tid.auto 0), Op.advance 5000],
      noUpdateOp op = true) ∧
    ((∀ p, posCount p (runOps [Op.create 0 noOptions, Op.dismiss (Tid.auto 0),
        Op.advance 5000] (initialState DEFAULT_CONFIG)).toasts
      ≤ DEFAULT_CONFIG.maxToasts) ∧
     ((runOps (scenarioOps "top-right" 6) (initialState DEFAULT_CONFIG)).toasts
        = [plainToast DEFAULT_CONFIG "top-right" 5, plainToast DEFAULT_CONFIG "top-right" 4,
           plainToast DEFAULT_CONFIG "top-right" 3, plainToast DEFAULT_CONFIG "top-right" 2,
           plainToast DEFAULT_CONFIG "top-right" 1] ∧
      (runOps (scenarioOps "top-right" 6) (initialState DEFAULT_CONFIG)).log = [] ∧
      (∀ t ∈ (runOps (scenarioOps "top-right" 6) (initialState DEFAULT_CONFIG)).pending,
        t.id ≠ Tid.auto 0))) :=
  ⟨by decide, capacity_bound [Op.create 0 noOptions, Op.dismiss (Tid.auto 0), Op.advance 5000]
    DEFAULT_CONFIG (by decide)⟩

/-! ### Identifier uniqueness for auto-generated ids -/

theorem filter_pos_perm (pos : String) (l : List Toast) :
    (l.filter (fun t => t.position = pos) ++ l.filter (fun t => t.position ≠ pos)).Perm l := by
  induction l with
  | nil => exact List.Perm.refl _
  | cons a ts ih =>
    by_cases ha : a.position = pos
    · rw [List.filter_cons, List.filter_cons, if_pos (by simp [ha]), if_neg (by simp [ha])]
      exact ih.cons a
    · rw [List.filter_cons, List.filter_cons, if_neg (by simp [ha]), if_pos (by simp [ha])]
      exact List.perm_middle.trans (ih.cons a)

theorem map_id_map_eq {f : Toast → Toast} (hf : ∀ x, (f x).id = x.id) (l : List Toast) :
    (l.map f).map Toast.id = l.map Toast.id := by
  rw [List.map_map]
  exact List.map_congr_left (fun a _ => hf a)

theorem dismiss_nextAuto (id : Tid) (s : MState) : (dismiss id s).nextAuto = s.nextAuto :=
  clearTimer_nextAuto id s

theorem fireTimer_nextAuto (t : Timer) (s : MState) : (fireTimer t s).nextAuto = s.nextAuto := by
  obtain ⟨k, i, d⟩ := t
  cases k with
  | expiry hh => exact clearTimer_nextAuto i _
  | purge => rfl

theorem ids_nodup_fireTimer {s : MState} (t : Timer)
    (h1 : (s.toasts.map Toast.id).Nodup)
    (h2 : ∀ x ∈ s.toasts, ∃ j, x.id = Tid.auto j ∧ j < s.nextAuto) :
    ((fireTimer t s).toasts.map Toast.id).Nodup ∧
    ∀ x ∈ (fireTimer t s).toasts, ∃ j, x.id = Tid.auto j ∧ j < (fireTimer t s).nextAuto := by
  rw [fireTimer_nextAuto]
  obtain ⟨k, i, d⟩ := t
  cases k with
  | expiry hh =>
    rw [fireTimer_toasts_expiry,
      map_id_map_eq (fun x => by by_cases hx : x.id = i <;> simp [hx])]
    refine ⟨h1, fun x hx => ?_⟩
    obtain ⟨y, hy, hxy⟩ := List.mem_map.mp hx
    obtain ⟨j, hj1, hj2⟩ := h2 y hy
    refine ⟨j, ?_, hj2⟩
    by_cases hyi : y.id = i
    · rw [← hxy, if_pos hyi]
      exact hj1
    · rw [← hxy, if_neg hyi]
      exact hj1
  | purge =>
    rw [fireTimer_toasts_purge]
    refine ⟨h1.sublist ((List.filter_sublist s.toasts).map Toast.id), fun x hx => ?_⟩
    exact h2 x (List.mem_of_mem_filter hx)

theorem ids_nodup_advLoop : ∀ (f : Nat) (limit : Option Nat) (s : MState),
    (s.toasts.map Toast.id).Nodup →
    (∀ x ∈ s.toasts, ∃ j, x.id = Tid.auto j ∧ j < s.nextAuto) →
    ((advLoop f limit s).toasts.map Toast.id).Nodup ∧
    ∀ x ∈ (advLoop f limit s).toasts, ∃ j, x.id = Tid.auto j
      ∧ j < (advLoop f limit s).nextAuto := by
  intro f
  induction f with
  | zero =>
    intro limit s h1 h2
    show ((setLimitNow limit s).toasts.map Toast.id).Nodup ∧ _
    cases limit <;> exact ⟨h1, h2⟩
  | succ f ih =>
    intro limit s h1 h2
    cases hpk : pickNext limit s.pending with
    | none =>
      simp only [advLoop, hpk]
      cases limit <;> exact ⟨h1, h2⟩
    | some t =>
      simp only [advLoop, hpk]
      obtain ⟨h3, h4⟩ := ids_nodup_fireTimer t h1 h2
      exact ih limit (fireTimer t s) h3 h4

theorem ids_nodup_applyOp {s : MState} (op : Op) (hop : autoOnlyOp op = true)
    (h1 : (s.toasts.map Toast.id).Nodup)
    (h2 : ∀ x ∈ s.toasts, ∃ j, x.id = Tid.auto j ∧ j < s.nextAuto) :
    ((applyOp op s).toasts.map Toast.id).Nodup ∧
    ∀ x ∈ (applyOp op s).toasts, ∃ j, x.id = Tid.auto j ∧ j < (applyOp op s).nextAuto := by
  cases op with
  | dismissAll => exact ⟨List.nodup_nil, fun x hx => absurd hx (List.not_mem_nil x)⟩
  | dismiss id =>
    show ((dismiss id s).toasts.map Toast.id).Nodup ∧
      ∀ x ∈ (dismiss id s).toasts, ∃ j, x.id = Tid.auto j ∧ j < (dismiss id s).nextAuto
    rw [dismiss_nextAuto, dismiss_toasts,
      map_id_map_eq (fun x => by by_cases hx : x.id = id <;> simp [hx])]
    refine ⟨h1, fun x hx => ?_⟩
    obtain ⟨y, hy, hxy⟩ := List.mem_map.mp hx
    obtain ⟨j, hj1, hj2⟩ := h2 y hy
    refine ⟨j, ?_, hj2⟩
    by_cases hyi : y.id = id
    · rw [← hxy, if_pos hyi]
      exact hj1
    · rw [← hxy, if_neg hyi]
      exact hj1
  | advance ms => exact ids_nodup_advLoop _ _ s h1 h2
  | update id m o =>
    have ho : o.id = none := by simpa [autoOnlyOp] using hop
    have hg : ∀ x : Toast,
        ((fun t => if t.id = id then applyUpdate m o t else t) x).id = x.id := by
      intro x
      by_cases hx : x.id = id
      · simp [hx, applyUpdate, ho]
      · simp [hx]
    have hts : (update id m o s).toasts
        = s.toasts.map (fun t => if t.id = id then applyUpdate m o t else t) := by
      unfold update
      cases hdur : o.duration with
      | none => rfl
      | some d2 => exact setTimer_toasts id d2 _
    have hna : (update id m o s).nextAuto = s.nextAuto := by
      unfold update
      cases hdur : o.duration with
      | none => rfl
      | some d2 => exact setTimer_nextAuto id d2 _
    show ((update id m o s).toasts.map Toast.id).Nodup ∧
      ∀ x ∈ (update id m o s).toasts, ∃ j, x.id = Tid.auto j ∧ j < (update id m o s).nextAuto
    rw [hts, hna, map_id_map_eq hg]
    refine ⟨h1, fun x hx => ?_⟩
    obtain ⟨y, hy, hxy⟩ := List.mem_map.mp hx
    obtain ⟨j, hj1, hj2⟩ := h2 y hy
    refine ⟨j, ?_, hj2⟩
    rw [← hxy, hg y, hj1]
  | create m o =>
    have ho : o.id = none := by simpa [autoOnlyOp] using hop
    obtain ⟨toast, pos, hpos, hid, htoasts, hconf, hauto, hlog⟩ := createToast_shape m o s
    have hid2 : toast.id = Tid.auto s.nextAuto := by
      rw [hid, ho]
      rfl
    have hna : (applyOp (Op.create m o) s).nextAuto = s.nextAuto + 1 := by
      show (createToast m o s).2.nextAuto = s.nextAuto + 1
      rw [hauto, ho]
      rfl
    have hsub : List.Sublist (applyOp (Op.create m o) s).toasts
        ((toast :: s.toasts.filter (fun t => t.position = pos))
          ++ s.toasts.filter (fun t => t.position ≠ pos)) := by
      show List.Sublist (createToast m o s).2.toasts _
      rw [htoasts]
      split
      · exact (List.take_sublist _ _).append_right _
      · exact List.Sublist.refl _
    have hperm : ((s.toasts.filter (fun t => t.position = pos))
          ++ s.toasts.filter (fun t => t.position ≠ pos)).Perm s.toasts :=
      filter_pos_perm pos s.toasts
    have hnodup : ((toast :: s.toasts.filter (fun t => t.position = pos))
          ++ s.toasts.filter (fun t => t.position ≠ pos)).map Toast.id
        |>.Nodup := by
      rw [List.cons_append, List.map_cons]
      have hcons : (toast.id :: (s.toasts.map Toast.id)).Nodup := by
        refine List.Nodup.cons ?_ h1
        intro hmem
        obtain ⟨y, hy, hxy⟩ := List.mem_map.mp hmem
        obtain ⟨j, hj1, hj2⟩ := h2 y hy
        rw [hj1, hid2] at hxy
        have : j = s.nextAuto := by
          cases hxy
          rfl
        omega
      have hpm : (toast.id :: (((s.toasts.filter (fun t => t.position = pos))
            ++ s.toasts.filter (fun t => t.position ≠ pos)).map Toast.id)).Perm
          (toast.id :: (s.toasts.map Toast.id)) :=
        (hperm.map Toast.id).cons toast.id
      exact hpm.nodup_iff.mpr hcons
    constructor
    · exact hnodup.sublist (hsub.map Toast.id)
    · intro x hx
      rw [hna]
      have hx2 := hsub.subset hx
      rcases List.mem_cons.mp (by rwa [List.cons_append] at hx2) with h5 | h5
      · subst h5
        exact ⟨s.nextAuto, hid2, by omega⟩
      · have hx3 := hperm.subset h5
        obtain ⟨j, hj1, hj2⟩ := h2 x hx3
        exact ⟨j, hj1, by omega⟩

theorem ids_nodup_runOps : ∀ (ops : List Op) (s : MState),
    (∀ op ∈ ops, autoOnlyOp op = true) →
    (s.toasts.map Toast.id).Nodup →
    (∀ x ∈ s.toasts, ∃ j, x.id = Tid.auto j ∧ j < s.nextAuto) →
    ((runOps ops s).toasts.map Toast.id).Nodup ∧
    ∀ x ∈ (runOps ops s).toasts, ∃ j, x.id = Tid.auto j ∧ j < (runOps ops s).nextAuto := by
  intro ops
  induction ops with
  | nil => intro s _ h1 h2; exact ⟨h1, h2⟩
  | cons op ops ih =>
    intro s hops h1 h2
    obtain ⟨h3, h4⟩ := ids_nodup_applyOp op (hops op (List.mem_cons_self _ _)) h1 h2
    exact ih (applyOp op s) (fun o ho => hops o (List.mem_cons_of_mem _ ho)) h3 h4

/-- C8 (amended): when every command relies on the auto-generated
identifiers (no caller-supplied `options.id`), the ids of the published
entries are pairwise distinct in every reachable state; with
caller-supplied ids the source performs no deduplication and duplicates
are reachable (see the counterexample). -/
theorem toast_ids_unique (ops : List Op) (cfg : ToastConfig)
    (hops : ∀ op ∈ ops, autoOnlyOp op = true) :
    ((runOps ops (initialState cfg)).toasts.map Toast.id).Nodup :=
  (ids_nodup_runOps ops (initialState cfg) hops List.nodup_nil
    (fun x hx => absurd hx (List.not_mem_nil x))).1

/-- C8 counterexample: two `create` calls both supplying id "x" yield two
concurrently live entries with the same id — caller-supplied ids are not
checked for uniqueness. -/
theorem duplicate_user_ids :
    ((runOps [Op.create 0 { noOptions with id := some (Tid.user "x") },
        Op.create 1 { noOptions with id := some (Tid.user "x") }]
      (initialState DEFAULT_CONFIG)).toasts.map Toast.id
      = [Tid.user "x", Tid.user "x"]) ∧
    ¬ ((runOps [Op.create 0 { noOptions with id := some (Tid.user "x") },
        Op.create 1 { noOptions with id := some (Tid.user "x") }]
      (initialState DEFAULT_CONFIG)).toasts.map Toast.id).Nodup := by decide

/-- Witness for `toast_ids_unique`: two auto-id creates. -/
theorem toast_ids_unique_witness :
    (∀ op ∈ [Op.create 0 noOptions, Op.create 1 noOptions], autoOnlyOp op = true) ∧
    ((runOps [Op.create 0 noOptions, Op.create 1 noOptions]
      (initialState DEFAULT_CONFIG)).toasts.map Toast.id).Nodup :=
  ⟨by decide, toast_ids_unique [Op.create 0 noOptions, Op.create 1 noOptions] DEFAULT_CONFIG
    (by decide)⟩

/-! ### The close callback of an entry fires at most once -/

theorem tokenCount_cons (c : Nat) (a : Toast) (l : List Toast) :
    tokenCount c (a :: l) = (if a.onClose = some c then 1 else 0) + tokenCount c l := by
  unfold tokenCount
  rw [List.filter_cons]
  by_cases h : a.onClose = some c
  · rw [if_pos (by simp [h]), if_pos h, List.length_cons]
    omega
  · rw [if_neg (by simp [h]), if_neg h]
    omega

theorem tokenCount_filter_split (c : Nat) (id : Tid) (l : List Toast) :
    tokenCount c l = tokenCount c (l.filter (fun t => t.id ≠ id))
      + tokenCount c (l.filter (fun t => t.id = id)) := by
  induction l with
  | nil => rfl
  | cons a l ih =>
    rw [List.filter_cons, List.filter_cons]
    by_cases hai : a.id = id
    · rw [if_neg (by simp [hai]), if_pos (by simp [hai]), tokenCount_cons, tokenCount_cons]
      omega
    · rw [if_pos (by simp [hai]), if_neg (by simp [hai]), tokenCount_cons, tokenCount_cons]
      omega

theorem tokenCount_filter_le (c : Nat) (id : Tid) (l : List Toast) :
    tokenCount c (l.filter (fun t => t.id ≠ id)) ≤ tokenCount c l := by
  unfold tokenCount
  rw [filter_comm]
  exact List.length_filter_le _ _

theorem one_le_tokenCount_of_mem {c : Nat} {x : Toast} {l : List Toast}
    (hx : x ∈ l) (hc : x.onClose = some c) : 1 ≤ tokenCount c l := by
  unfold tokenCount
  have hmem : x ∈ l.filter (fun t => t.onClose = some c) :=
    List.mem_filter.mpr ⟨hx, by simp [hc]⟩
  exact List.length_pos_of_mem hmem

theorem tokenCount_map_eq {f : Toast → Toast} (hf : ∀ x, (f x).onClose = x.onClose)
    (c : Nat) (l : List Toast) : tokenCount c (l.map f) = tokenCount c l := by
  induction l with
  | nil => rfl
  | cons a l ih =>
    rw [List.map_cons, tokenCount_cons, tokenCount_cons, hf a, ih]

theorem closePotential_dismiss_eq (id : Tid) (s : MState) (c : Nat) :
    closePotential c (dismiss id s) = closePotential c s := by
  unfold closePotential
  rw [show (dismiss id s).log = s.log from clearTimer_log id s, dismiss_toasts,
    tokenCount_map_eq (fun x => by by_cases hx : x.id = id <;> simp [hx]) c s.toasts]

theorem closePotential_dismissAll_eq (s : MState) (c : Nat) :
    closePotential c (dismissAll s) = closePotential c s := by
  unfold closePotential
  show (s.log ++ s.toasts.filterMap Toast.onClose).count c + tokenCount c [] = _
  rw [List.count_append, count_filterMap_onClose]
  have hP : s.toasts.countP (fun t => t.onClose = some c) = tokenCount c s.toasts := by
    unfold tokenCount
    rw [List.countP_eq_length_filter]
  rw [hP]
  show _ + _ + 0 = _
  omega

theorem closePotential_purgeStep_le (id : Tid) (s : MState) (c : Nat) :
    closePotential c (purgeStep id s) ≤ closePotential c s := by
  have hcount : ∀ o : Option Nat, (o.toList).count c = if o = some c then 1 else 0 := by
    intro o
    cases o with
    | none => simp
    | some v =>
      by_cases hv : v = c
      · subst hv
        simp [Option.toList]
      · have hne : ¬ (some v = some c) := by simp [hv]
        rw [if_neg hne]
        simp [Option.toList, List.count_cons, hv]
  show (s.log ++ ((s.toasts.find? (fun t => t.id = id)).bind Toast.onClose).toList).count c
      + tokenCount c (s.toasts.filter (fun t => t.id ≠ id))
    ≤ s.log.count c + tokenCount c s.toasts
  rw [List.count_append, hcount]
  cases hf : s.toasts.find? (fun t => t.id = id) with
  | none =>
    have hle := tokenCount_filter_le c id s.toasts
    simp only [Option.none_bind]
    rw [if_neg (by simp)]
    omega
  | some x =>
    have hxmem : x ∈ s.toasts := List.mem_of_find?_eq_some hf
    have hxid : x.id = id := by simpa using List.find?_some hf
    have hsplit := tokenCount_filter_split c id s.toasts
    by_cases hxc : x.onClose = some c
    · have h1 : 1 ≤ tokenCount c (s.toasts.filter (fun t => t.id = id)) :=
        one_le_tokenCount_of_mem (List.mem_filter.mpr ⟨hxmem, by simp [hxid]⟩) hxc
      rw [show ((some x).bind Toast.onClose) = x.onClose from rfl, if_pos hxc]
      omega
    · have hle := tokenCount_filter_le c id s.toasts
      rw [show ((some x).bind Toast.onClose) = x.onClose from rfl, if_neg hxc]
      omega

theorem closePotential_fireTimer_le (t : Timer) (s : MState) (c : Nat) :
    closePotential c (fireTimer t s) ≤ closePotential c s := by
  obtain ⟨k, i, d⟩ := t
  cases k with
  | expiry hh =>
    show closePotential c (dismiss i _) ≤ _
    rw [closePotential_dismiss_eq]
    exact le_of_eq rfl
  | purge =>
    show closePotential c (purgeStep i _) ≤ _
    exact le_trans (closePotential_purgeStep_le i _ c) (le_of_eq rfl)

theorem closePotential_advLoop_le : ∀ (f : Nat) (limit : Option Nat) (s : MState) (c : Nat),
    closePotential c (advLoop f limit s) ≤ closePotential c s := by
  intro f
  induction f with
  | zero =>
    intro limit s c
    show closePotential c (setLimitNow limit s) ≤ closePotential c s
    cases limit <;> exact le_of_eq rfl
  | succ f ih =>
    intro limit s c
    cases hpk : pickNext limit s.pending with
    | none =>
      simp only [advLoop, hpk]
      cases limit <;> exact le_of_eq rfl
    | some t =>
      simp only [advLoop, hpk]
      exact le_trans (ih limit (fireTimer t s) c) (closePotential_fireTimer_le t s c)

theorem closePotential_applyOp_le {op : Op} (hop : dismissLikeOp op = true) (s : MState)
    (c : Nat) : closePotential c (applyOp op s) ≤ closePotential c s := by
  cases op with
  | create m o => simp [dismissLikeOp] at hop
  | update id m o => simp [dismissLikeOp] at hop
  | dismiss id => exact le_of_eq (closePotential_dismiss_eq id s c)
  | dismissAll => exact le_of_eq (closePotential_dismissAll_eq s c)
  | advance ms => exact closePotential_advLoop_le _ _ s c

/-- C10: if the close-callback token `c` is carried by at most one live
entry and has been invoked at most `1 - that` many times (together:
`closePotential c s ≤ 1`), then under any interleaving of dismiss,
dismissAll and virtual-time advances (expiry and purge firings) the token
is never invoked more than once in total — in particular a `dismissAll`
while the entry is already removing does not produce a second invocation
when the pending purge timeout later fires. -/
theorem onClose_at_most_once (s : MState) (c : Nat) (ops : List Op)
    (hops : ∀ op ∈ ops, dismissLikeOp op = true)
    (hpot : closePotential c s ≤ 1) :
    (runOps ops s).log.count c ≤ 1 := by
  have hmain : ∀ (l : List Op) (s2 : MState), (∀ op ∈ l, dismissLikeOp op = true) →
      closePotential c (runOps l s2) ≤ closePotential c s2 := by
    intro l
    induction l with
    | nil => intro s2 _; exact le_refl _
    | cons op l ih =>
      intro s2 hl
      exact le_trans (ih (applyOp op s2) (fun o ho => hl o (List.mem_cons_of_mem _ ho)))
        (closePotential_applyOp_le (hl op (List.mem_cons_self _ _)) s2 c)
  have h1 := hmain ops s hops
  have h2 : (runOps ops s).log.count c ≤ closePotential c (runOps ops s) := by
    unfold closePotential
    omega
  omega

/-- Witness for `onClose_at_most_once`: an entry with close token 7 is
dismissed (purge pending), then `dismissAll` runs and finally time
advances past the purge deadline; the token is logged exactly once. -/
theorem onClose_at_most_once_witness :
    (∀ op ∈ [Op.dismissAll, Op.advance 400], dismissLikeOp op = true) ∧
    closePotential 7 (runOps [Op.create 1 { noOptions with onClose := some 7 },
      Op.dismiss (Tid.auto 0)] (initialState DEFAULT_CONFIG)) ≤ 1 ∧
    (runOps [Op.dismissAll, Op.advance 400]
      (runOps [Op.create 1 { noOptions with onClose := some 7 },
        Op.dismiss (Tid.auto 0)] (initialState DEFAULT_CONFIG))).log.count 7 ≤ 1 :=
  ⟨by decide, by decide, onClose_at_most_once (runOps
      [Op.create 1 { noOptions with onClose := some 7 }, Op.dismiss (Tid.auto 0)]
      (initialState DEFAULT_CONFIG)) 7 [Op.dismissAll, Op.advance 400]
    (by decide) (by decide)⟩

end ReactToast
